import Mathlib

/-!
Verification of the `smart_party` fixed-rate cooperative task scheduler
(`src/event_loop.py`) and the byte-stream XOR cipher (`src/light.py`).

The Python classes `Task` and `EventLoop` are shallowly embedded as pure
Lean functions over an explicit state.  Tasks live in a heap indexed by
natural-number identities (Python object identity); their user hooks
(`setup`, `tick`, `finish`) are modelled by instrumentation counters plus
a behaviour function that gives, for each tick, the observable effect of
the hook body (return value, re-entrant `schedule`, `stop`, or raising an
exception).  Machine timing (`time.time`, `time.sleep`) is modelled by an
oracle giving the elapsed work time of each frame.
-/

namespace SmartParty

/-- The lifecycle enum `ELState` from `event_loop.py`. -/
inductive ELState where
  | New
  | Setup
  | Running
  | Finished
deriving DecidableEq, Repr

/-- Exceptions that the embedded code can raise. -/
inductive PyErr where
  /-- an exception escaping some task's `tick` (`tid` = raising task) -/
  | tickError (tid : Nat)
  /-- an exception escaping some task's `finish` hook -/
  | finishError (tid : Nat)
  /-- `ValueError` from `list.remove` on an absent element -/
  | notFound
  /-- `ZeroDivisionError` from `1.0 / float(0)` -/
  | zeroDivision
deriving DecidableEq, Repr

/-- Observable effect of one invocation of a task's `tick` body:
it may re-entrantly call `EventLoop.schedule` or `EventLoop.stop`
before returning its continue flag, or raise an exception. -/
inductive TickEff where
  /-- plain return of the continue flag -/
  | ret (cont : Bool)
  /-- calls `el.schedule(u)` on the task with identity `u`, then returns `cont` -/
  | schedThen (u : Nat) (cont : Bool)
  /-- calls `el.stop()`, then returns `cont` -/
  | stopThen (cont : Bool)
  /-- the tick body raises an exception -/
  | raiseErr

/-- A `Task` object.  `setupCount` / `finishCount` / `tickCount` count the
executions of the user hooks (instrumentation); `tickedFrames` records the
frame numbers at which the task's `tick` was invoked; `finishRaises` says
whether the user `finish` hook raises; `beh` gives the effect of the `n`-th
invocation of the user `tick` body. -/
structure TaskObj where
  state : ELState := .New
  setupCount : Nat := 0
  finishCount : Nat := 0
  tickCount : Nat := 0
  tickedFrames : List Nat := []
  finishRaises : Bool := false
  beh : Nat → TickEff := fun _ => .ret true

/-- The object heap: Python object identity (a `Nat`) to task object. -/
def Heap : Type := Nat → TaskObj

/-- Heap update at one identity. -/
def Heap.set (h : Heap) (i : Nat) (t : TaskObj) : Heap :=
  fun j => if j = i then t else h j

/-- `Task._setup(self, el)`: guarded by `state == New`; runs the user
`setup` hook and moves to `Setup`; otherwise a no-op. -/
def taskSetup (h : Heap) (i : Nat) : Heap :=
  if (h i).state = ELState.New then
    h.set i { h i with setupCount := (h i).setupCount + 1, state := ELState.Setup }
  else h

/-- `Task._finish(self)`: guarded by `state in (Setup, Running)`; runs the
user `finish` hook and then moves to `Finished`.  If the hook raises, the
state assignment is not reached (the hook still ran once).  Outside the
guard it is a no-op.  Returns the new heap and the raised exception. -/
def taskFinish (h : Heap) (i : Nat) : Heap × Option PyErr :=
  if (h i).state = ELState.Setup ∨ (h i).state = ELState.Running then
    if (h i).finishRaises then
      (h.set i { h i with finishCount := (h i).finishCount + 1 }, some (.finishError i))
    else
      (h.set i { h i with finishCount := (h i).finishCount + 1, state := ELState.Finished },
       none)
  else (h, none)

/-- Direct invocations of the internal lifecycle entry points, for stating
the lifecycle invariant over arbitrary call sequences. -/
inductive TaskOp where
  | setupOp
  | finishOp
deriving DecidableEq, Repr

/-- Apply one lifecycle entry point to the object at identity `i`
(exceptions from the `finish` hook are not tracked here; the heap effect
is identical). -/
def applyOp (h : Heap) (i : Nat) : TaskOp → Heap
  | .setupOp => taskSetup h i
  | .finishOp => (taskFinish h i).1

/-- Apply a sequence of lifecycle entry-point calls to identity `i`. -/
def applyOps (i : Nat) (ops : List TaskOp) (h : Heap) : Heap :=
  ops.foldl (fun hh o => applyOp hh i o) h

/-- Whether a call sequence contains a `_setup` call. -/
def hasSetupOp : List TaskOp → Bool
  | [] => false
  | .setupOp :: _ => true
  | .finishOp :: rest => hasSetupOp rest

/-- Whether a call sequence contains a `_finish` call. -/
def hasFinishOp : List TaskOp → Bool
  | [] => false
  | .finishOp :: _ => true
  | .setupOp :: rest => hasFinishOp rest

/-- Whether a call sequence contains a `_finish` call somewhere after a
`_setup` call. -/
def finishAfterSetup : List TaskOp → Bool
  | [] => false
  | .setupOp :: rest => hasFinishOp rest
  | .finishOp :: rest => finishAfterSetup rest

/-! ### The XOR stream cipher of `light.py` -/

/-- The loop body of `enc`: chain the key through the plaintext
(`key = key ^ byte; bs[i] = key`). -/
def encBytes (key : Nat) : List Nat → List Nat
  | [] => []
  | b :: rest => (key ^^^ b) :: encBytes (key ^^^ b) rest

/-- The loop body of `dec`: invert the chain
(`bs[i] = key ^ byte; key = byte`). -/
def decBytes (key : Nat) : List Nat → List Nat
  | [] => []
  | b :: rest => (key ^^^ b) :: decBytes b rest

/-- `enc(ascii_string)` from `light.py`: the input is the list of byte
values of an ASCII string; the initial key is `0xAB`. -/
def enc (s : List Nat) : List Nat := encBytes 0xAB s

/-- `dec(byte_string)` from `light.py`: decode then `.decode('ascii')`,
which fails (returns `none`) when some decoded byte is not ASCII. -/
def dec (bs : List Nat) : Option (List Nat) :=
  let ps := decBytes 0xAB bs
  if ps.all (fun b => b < 128) then some ps else none

/-! ### The `EventLoop` class of `event_loop.py` -/

/-- The scheduler object.  The Python attribute `run` (created only by
`EventLoop.setup`, and shadowing the bound method `run`) is modelled as an
`Option Bool`: `none` means the attribute is unset, in which case Python
attribute lookup finds the bound method instead, a truthy value.
`sleepLog` is instrumentation: the computed `sleep_time` of each completed
frame, in frame order. -/
structure ELoop where
  seconds_per_frame : ℚ
  tasks : List Nat
  state : ELState := .New
  frame : Nat := 0
  sleep_time : ℚ := 0
  run : Option Bool := none
  sleepLog : List ℚ := []

/-- Truth value of the expression `self.run`: the unset attribute resolves
to the bound method `run`, which is truthy. -/
def truthy : Option Bool → Bool
  | none => true
  | some b => b

/-- `EventLoop.__init__(self, target_fps, tasks)`: computes
`self.seconds_per_frame = 1.0 / float(target_fps)` — raising
`ZeroDivisionError` when `target_fps` is zero — and performs no other
validation of the rate. -/
def mkEventLoop (target_fps : ℚ) (tasks : List Nat) : Except PyErr ELoop :=
  if target_fps = 0 then .error .zeroDivision
  else .ok { seconds_per_frame := 1 / target_fps, tasks := tasks }

/-- Observation helper: the `seconds_per_frame` of a construction result. -/
def getSpf : Except PyErr ELoop → Option ℚ
  | .ok el => some el.seconds_per_frame
  | .error _ => none

/-- A scheduler together with the task heap. -/
structure World where
  el : ELoop
  heap : Heap

/-- `EventLoop.schedule(self, task)`: `if self.run: task._setup(self)`,
then append the task to the tail of `self.tasks`. -/
def schedule (w : World) (u : Nat) : World :=
  let h := if truthy w.el.run then taskSetup w.heap u else w.heap
  { el := { w.el with tasks := w.el.tasks ++ [u] }, heap := h }

/-- `EventLoop.unschedule(self, task)`: `if self.run: task._finish()`,
then `self.tasks.remove(task)`, which removes the first occurrence or
raises `ValueError` when the task is absent.  A raise from `_finish`
propagates before `remove` is reached. -/
def unschedule (w : World) (u : Nat) : World × Option PyErr :=
  match (if truthy w.el.run then taskFinish w.heap u else (w.heap, none)) with
  | (h, some e) => ({ w with heap := h }, some e)
  | (h, none) =>
    if u ∈ w.el.tasks then
      ({ el := { w.el with tasks := w.el.tasks.erase u }, heap := h }, none)
    else
      ({ w with heap := h }, some .notFound)

/-- `EventLoop.setup(self)`: reset the frame counters, set the `run`
attribute to `True`, run `_setup` on every scheduled task in order, and
set the loop state to `Setup`. -/
def elSetup (w : World) : World :=
  let h := w.el.tasks.foldl (fun hh t => taskSetup hh t) w.heap
  { el := { w.el with frame := 0, sleep_time := 0, run := some true, state := .Setup },
    heap := h }

/-- The list comprehension `[t._finish() for t in self.tasks]`: runs
`_finish` on each task in order; a raise aborts the remaining calls. -/
def elFinishAux : List Nat → Heap → Heap × Option PyErr
  | [], h => (h, none)
  | t :: rest, h =>
    match taskFinish h t with
    | (h1, some e) => (h1, some e)
    | (h1, none) => elFinishAux rest h1

/-- `EventLoop.finish(self)`: bulk `_finish` pass over `self.tasks`; the
state assignment to `Finished` is reached only when no hook raised. -/
def elFinish (w : World) : World × Option PyErr :=
  match elFinishAux w.el.tasks w.heap with
  | (h, some e) => ({ w with heap := h }, some e)
  | (h, none) => ({ el := { w.el with state := .Finished }, heap := h }, none)

/-- State of the iteration of the list comprehension in `EventLoop.tick`
(`self.tasks = [t for t in self.tasks if EventLoop._tick(t)]`).  The live
list object `self.tasks` is `done ++ pending`: `done` holds the elements
already visited, in visit order; appends made by `schedule` during the
iteration go to the end of `pending` and are therefore visited too. -/
structure PassSt where
  heap : Heap
  run : Option Bool
  done : List Nat
  pending : List Nat
  keep : List Nat

/-- Outcome of the tick pass.  `ok heap run keep visited`: the
comprehension finished; `self.tasks` becomes `keep` and `visited` is the
full grown list (every element the iteration visited).  `err heap run
tasksNow visited e`: a tick or finish hook raised `e`, aborting the
comprehension; `self.tasks` keeps pointing at the grown list `tasksNow`,
and `visited` lists the tasks whose `tick` was invoked. -/
inductive PassOut where
  | ok (heap : Heap) (run : Option Bool) (keep : List Nat) (visited : List Nat)
  | err (heap : Heap) (run : Option Bool) (tasksNow : List Nat) (visited : List Nat)
        (e : PyErr)

/-- The heap carried by a pass outcome. -/
def PassOut.heapOf : PassOut → Heap
  | .ok h _ _ _ => h
  | .err h _ _ _ _ => h

/-- The visited list carried by a pass outcome. -/
def PassOut.visitedOf : PassOut → List Nat
  | .ok _ _ _ v => v
  | .err _ _ _ v _ => v

/-- The value `self.tasks` holds after the pass. -/
def PassOut.tasksOf : PassOut → List Nat
  | .ok _ _ k _ => k
  | .err _ _ t _ _ => t

/-- The `run` attribute after the pass. -/
def PassOut.runOf : PassOut → Option Bool
  | .ok _ r _ _ => r
  | .err _ r _ _ _ => r

/-- `EventLoop._tick(task)` after `task.tick()` returned `cont` without
raising: a continuing task is kept by the comprehension; a stopping task
gets `task._finish()`, whose raise aborts the iteration. -/
def afterTick (s : PassSt) (tid : Nat) (cont : Bool) : PassSt ⊕ PassOut :=
  if cont then .inl { s with keep := s.keep ++ [tid] }
  else
    match taskFinish s.heap tid with
    | (h1, some e) => .inr (.err h1 s.run (s.done ++ s.pending) s.done e)
    | (h1, none) => .inl { s with heap := h1 }

/-- The instrumentation record of one invocation of a task's `tick` body
during frame `frame`: bump its `tickCount` and log the frame number. -/
def visitUpd (h : Heap) (tid frame : Nat) : Heap :=
  h.set tid { h tid with tickCount := (h tid).tickCount + 1,
                         tickedFrames := (h tid).tickedFrames ++ [frame] }

/-- One iteration step of the comprehension in `EventLoop.tick` during
frame `frame`: visit the next pending task, invoke its `tick` body
(recording the invocation), apply its re-entrant effect, and handle the
continue flag. -/
def stepTask (frame : Nat) (s : PassSt) : PassSt ⊕ PassOut :=
  match s.pending with
  | [] => .inr (.ok s.heap s.run s.keep s.done)
  | tid :: rest =>
    let h1 := visitUpd s.heap tid frame
    match (s.heap tid).beh ((s.heap tid).tickCount) with
    | .raiseErr =>
      .inr (.err h1 s.run (s.done ++ tid :: rest) (s.done ++ [tid]) (.tickError tid))
    | .ret cont =>
      afterTick { s with heap := h1, done := s.done ++ [tid], pending := rest } tid cont
    | .schedThen u cont =>
      let h2 := if truthy s.run then taskSetup h1 u else h1
      afterTick { s with heap := h2, done := s.done ++ [tid], pending := rest ++ [u] } tid cont
    | .stopThen cont =>
      afterTick { s with heap := h1, run := some false, done := s.done ++ [tid], pending := rest } tid cont

/-- Run the comprehension to completion, with fuel bounding the number of
iterations (a task that keeps scheduling new tasks makes the Python
iteration diverge; `none` = out of fuel). -/
def tickPassAux (frame : Nat) : Nat → PassSt → Option PassOut
  | 0, _ => none
  | fuel + 1, s =>
    match stepTask frame s with
    | .inl s1 => tickPassAux frame fuel s1
    | .inr out => some out

/-- The initial iteration state of a frame's tick pass. -/
def passInit (w : World) : PassSt :=
  { heap := w.heap, run := w.el.run, done := [], pending := w.el.tasks, keep := [] }

/-- `EventLoop.tick(self)`: rebuild `self.tasks` from the comprehension
and increment `self.frame`.  A raise escapes before the increment, with
`self.tasks` still pointing at the grown live list. -/
def elTick (passFuel : Nat) (w : World) : Option (World × Option PyErr) :=
  match tickPassAux w.el.frame passFuel (passInit w) with
  | none => none
  | some (.ok h ra keep _) =>
    some ({ el := { w.el with tasks := keep, frame := w.el.frame + 1, run := ra },
            heap := h }, none)
  | some (.err h ra tasksNow _ e) =>
    some ({ el := { w.el with tasks := tasksNow, run := ra }, heap := h }, some e)

/-- One body of the `while self.run:` loop in `EventLoop.run`: tick, then
compute `self.sleep_time = self.seconds_per_frame - frame_len_t` and sleep
it off when positive.  `elapsed` is the oracle giving the measured work
time of each frame.  A raise from `tick` aborts the body. -/
def frameCycle (passFuel : Nat) (elapsed : Nat → ℚ) (w : World) :
    Option (World × Option PyErr) :=
  match elTick passFuel w with
  | none => none
  | some (w1, some e) => some (w1, some e)
  | some (w1, none) =>
    let st := w1.el.seconds_per_frame - elapsed w.el.frame
    some ({ w1 with el := { w1.el with sleep_time := st, sleepLog := w1.el.sleepLog ++ [st] } },
          none)

/-- The `while self.run:` loop, with fuel bounding the number of frames.
Returns the world at loop exit together with the exception escaping the
loop, if any. -/
def runLoop (passFuel : Nat) (elapsed : Nat → ℚ) : Nat → World → Option (World × Option PyErr)
  | 0, w => if truthy w.el.run then none else some (w, none)
  | fuel + 1, w =>
    if truthy w.el.run then
      match frameCycle passFuel elapsed w with
      | none => none
      | some (w1, some e) => some (w1, some e)
      | some (w1, none) => runLoop passFuel elapsed fuel w1
    else some (w, none)

/-- The `try/finally` tail of `EventLoop.run`: run the loop, then always
run `EventLoop.finish`.  An exception raised inside the `finally` block
replaces the in-flight exception; otherwise the loop's exception is
surfaced to the caller of `run`. -/
def runAndTeardown (passFuel : Nat) (elapsed : Nat → ℚ) (fuel : Nat) (w : World) :
    Option (World × Option PyErr) :=
  match runLoop passFuel elapsed fuel w with
  | none => none
  | some (w1, e) =>
    match elFinish w1 with
    | (w2, some e2) => some (w2, some e2)
    | (w2, none) => some (w2, e)

/-- `EventLoop.run(self)`: bulk setup, set `self.state = Running`, then the
guarded loop with its `finally` teardown. -/
def elRun (passFuel : Nat) (elapsed : Nat → ℚ) (fuel : Nat) (w : World) :
    Option (World × Option PyErr) :=
  let w1 := elSetup w
  runAndTeardown passFuel elapsed fuel
    { el := { w1.el with state := .Running }, heap := w1.heap }

/-- The world after a frame whose tick pass completed normally with new
heap `h1`, survivor list `kp`, run attribute `ra`, and computed sleep time
`st`: the shape `frameCycle` produces on the no-exception path. -/
def afterFrame (w : World) (h1 : Heap) (kp : List Nat) (ra : Option Bool) (st : ℚ) : World :=
  { el := { w.el with tasks := kp, frame := w.el.frame + 1, run := ra,
                      sleep_time := st, sleepLog := w.el.sleepLog ++ [st] },
    heap := h1 }

/-- The world after a frame whose tick pass raised: `self.tasks` keeps the
grown live list `tn`, the frame counter is not incremented, and no sleep
is computed. -/
def errWorld (w : World) (h1 : Heap) (ra : Option Bool) (tn : List Nat) : World :=
  { el := { w.el with tasks := tn, run := ra }, heap := h1 }

/-! ### Observation helpers and concrete scenarios -/

/-- Project the world out of a loop-step result (dummy on `none`). -/
def outWorld : Option (World × Option PyErr) → World
  | some (w, _) => w
  | none => { el := { seconds_per_frame := 0, tasks := [] }, heap := fun _ => {} }

/-- Project the escaping exception out of a loop-step result. -/
def outErr : Option (World × Option PyErr) → Option PyErr
  | some (_, e) => e
  | none => none

/-- Project a pass outcome out of its fuel wrapper (dummy on `none`). -/
def passOutOf : Option PassOut → PassOut
  | some p => p
  | none => .ok (fun _ => {}) none [] []

/-- Scenario for C2: a running loop at frame 0 whose single task `0`
schedules the fresh task `1` during its own tick. -/
def hC2 : Heap := fun v =>
  if v = 0 then { state := .Setup, beh := fun _ => .schedThen 1 true }
  else { state := .New }

/-- Scenario world for C2. -/
def wC2 : World :=
  { el := { seconds_per_frame := 1, tasks := [0], state := .Running, run := some true },
    heap := hC2 }

/-- Scenario for C4: task `7` returns continue=false on its first tick;
task `3` keeps running. -/
def hC4 : Heap := fun v =>
  if v = 7 then { state := .Setup, beh := fun _ => .ret false }
  else { state := .Setup }

/-- Scenario world for C4. -/
def wC4 : World :=
  { el := { seconds_per_frame := 1, tasks := [3, 7], state := .Running, run := some true },
    heap := hC4 }

/-- Scenario for C5: the tick of task `0` raises; task `1` follows it. -/
def hC5 : Heap := fun v =>
  if v = 0 then { state := .Setup, beh := fun _ => .raiseErr }
  else { state := .Setup }

/-- Scenario world for C5. -/
def wC5 : World :=
  { el := { seconds_per_frame := 1, tasks := [0, 1], state := .Running, run := some true },
    heap := hC5 }

/-- Scenario world for C6: a freshly constructed loop (`run()` never
called, so the `run` attribute is unset and the loop state is `New`)
and a fresh task `0`. -/
def wC6 : World :=
  { el := { seconds_per_frame := 1, tasks := [] }, heap := fun _ => {} }

/-- Scenario for C7: the finish hook of task `0` raises; task `1` follows
it in the sequence. -/
def hC7 : Heap := fun v =>
  if v = 0 then { state := .Setup, finishRaises := true }
  else { state := .Setup }

/-- Scenario world for C7. -/
def wC7 : World :=
  { el := { seconds_per_frame := 1, tasks := [0, 1], state := .Running, run := some true },
    heap := hC7 }

/-- Scenario for C8: task `0` calls `stop()` during its tick in frame 0;
task `1` comes after it in the same frame. -/
def hC8 : Heap := fun v =>
  if v = 0 then { state := .Setup, beh := fun _ => .stopThen true }
  else { state := .Setup }

/-- Scenario world for C8. -/
def wC8 : World :=
  { el := { seconds_per_frame := 1, tasks := [0, 1], state := .Running, run := some true },
    heap := hC8 }

/-- Scenario world for C9: a running loop whose sequence is `[1]`; task
`5` is alive (`Setup`) but not scheduled. -/
def wC9 : World :=
  { el := { seconds_per_frame := 1, tasks := [1], state := .Running, run := some true },
    heap := fun _ => { state := .Setup } }

/-! ### Basic heap and lifecycle lemmas -/

theorem Heap.set_self (h : Heap) (i : Nat) (t : TaskObj) : (h.set i t) i = t := by
  simp [Heap.set]

theorem Heap.set_ne (h : Heap) {i j : Nat} (t : TaskObj) (hij : j ≠ i) :
    (h.set i t) j = h j := by
  simp [Heap.set, hij]

theorem taskSetup_ne (h : Heap) {u v : Nat} (hv : v ≠ u) : taskSetup h u v = h v := by
  unfold taskSetup
  split
  · exact Heap.set_ne h _ hv
  · rfl

theorem taskSetup_beh (h : Heap) (u v : Nat) : (taskSetup h u v).beh = (h v).beh := by
  unfold taskSetup
  split
  · by_cases hv : v = u
    · subst hv; rw [Heap.set_self]
    · rw [Heap.set_ne h _ hv]
  · rfl

theorem taskSetup_finishRaises (h : Heap) (u v : Nat) :
    (taskSetup h u v).finishRaises = (h v).finishRaises := by
  unfold taskSetup
  split
  · by_cases hv : v = u
    · subst hv; rw [Heap.set_self]
    · rw [Heap.set_ne h _ hv]
  · rfl

theorem taskSetup_tickCount (h : Heap) (u v : Nat) :
    (taskSetup h u v).tickCount = (h v).tickCount := by
  unfold taskSetup
  split
  · by_cases hv : v = u
    · subst hv; rw [Heap.set_self]
    · rw [Heap.set_ne h _ hv]
  · rfl

theorem taskSetup_tickedFrames (h : Heap) (u v : Nat) :
    (taskSetup h u v).tickedFrames = (h v).tickedFrames := by
  unfold taskSetup
  split
  · by_cases hv : v = u
    · subst hv; rw [Heap.set_self]
    · rw [Heap.set_ne h _ hv]
  · rfl

theorem taskFinish_ne (h : Heap) {u v : Nat} (hv : v ≠ u) :
    (taskFinish h u).1 v = h v := by
  unfold taskFinish
  split
  · split <;> simp [Heap.set, hv]
  · rfl

theorem taskFinish_beh (h : Heap) (u v : Nat) :
    ((taskFinish h u).1 v).beh = (h v).beh := by
  by_cases hv : v = u
  · subst hv
    unfold taskFinish
    split
    · split <;> simp [Heap.set]
    · rfl
  · rw [taskFinish_ne h hv]

theorem taskFinish_finishRaises (h : Heap) (u v : Nat) :
    ((taskFinish h u).1 v).finishRaises = (h v).finishRaises := by
  by_cases hv : v = u
  · subst hv
    unfold taskFinish
    split
    · split <;> simp [Heap.set]
    · rfl
  · rw [taskFinish_ne h hv]

theorem taskFinish_tickCount (h : Heap) (u v : Nat) :
    ((taskFinish h u).1 v).tickCount = (h v).tickCount := by
  by_cases hv : v = u
  · subst hv
    unfold taskFinish
    split
    · split <;> simp [Heap.set]
    · rfl
  · rw [taskFinish_ne h hv]

theorem taskFinish_tickedFrames (h : Heap) (u v : Nat) :
    ((taskFinish h u).1 v).tickedFrames = (h v).tickedFrames := by
  by_cases hv : v = u
  · subst hv
    unfold taskFinish
    split
    · split <;> simp [Heap.set]
    · rfl
  · rw [taskFinish_ne h hv]

theorem taskSetup_not_new (h : Heap) (i : Nat) (hs : (h i).state ≠ ELState.New) :
    taskSetup h i = h := by
  unfold taskSetup
  simp [hs]

theorem taskFinish_not_alive (h : Heap) (i : Nat)
    (h1 : (h i).state ≠ ELState.Setup) (h2 : (h i).state ≠ ELState.Running) :
    taskFinish h i = (h, none) := by
  unfold taskFinish
  simp [h1, h2]

/-! ### Lifecycle entry-point call sequences (C3) -/

theorem applyOps_finished (i : Nat) (ops : List TaskOp) : ∀ (h : Heap),
    (h i).state = ELState.Finished → applyOps i ops h i = h i := by
  induction ops with
  | nil => intro h _; rfl
  | cons o rest ih =>
    intro h hs
    cases o with
    | setupOp =>
      have hne : (h i).state ≠ ELState.New := by rw [hs]; intro hc; cases hc
      show applyOps i rest (taskSetup h i) i = h i
      rw [taskSetup_not_new h i hne]
      exact ih h hs
    | finishOp =>
      have h1 : (h i).state ≠ ELState.Setup := by rw [hs]; intro hc; cases hc
      have h2 : (h i).state ≠ ELState.Running := by rw [hs]; intro hc; cases hc
      show applyOps i rest (taskFinish h i).1 i = h i
      rw [taskFinish_not_alive h i h1 h2]
      exact ih h hs

theorem applyOps_setupState (i : Nat) (ops : List TaskOp) : ∀ (h : Heap),
    (h i).state = ELState.Setup → (h i).finishRaises = false →
    (applyOps i ops h i).setupCount = (h i).setupCount
      ∧ (applyOps i ops h i).finishCount
          = (h i).finishCount + (if hasFinishOp ops then 1 else 0) := by
  induction ops with
  | nil => intro h _ _; simp [applyOps, hasFinishOp]
  | cons o rest ih =>
    intro h hs hr
    cases o with
    | setupOp =>
      have hne : (h i).state ≠ ELState.New := by rw [hs]; intro hc; cases hc
      show (applyOps i rest (taskSetup h i) i).setupCount = _
        ∧ (applyOps i rest (taskSetup h i) i).finishCount = _
      rw [taskSetup_not_new h i hne]
      simpa [hasFinishOp] using ih h hs hr
    | finishOp =>
      have hguard : (h i).state = ELState.Setup ∨ (h i).state = ELState.Running :=
        Or.inl hs
      have htf : taskFinish h i
          = (h.set i { h i with finishCount := (h i).finishCount + 1, state := ELState.Finished }, none) := by
        unfold taskFinish
        simp [hguard, hr, hs]
      show (applyOps i rest (taskFinish h i).1 i).setupCount = _
        ∧ (applyOps i rest (taskFinish h i).1 i).finishCount = _
      rw [htf]
      have hfin : ((h.set i { h i with finishCount := (h i).finishCount + 1, state := ELState.Finished }) i).state = ELState.Finished := by
        rw [Heap.set_self]
      rw [applyOps_finished i rest _ hfin, Heap.set_self]
      simp [hasFinishOp]

theorem applyOps_newState (i : Nat) (ops : List TaskOp) : ∀ (h : Heap),
    (h i).state = ELState.New → (h i).finishRaises = false →
    (applyOps i ops h i).setupCount
        = (h i).setupCount + (if hasSetupOp ops then 1 else 0)
      ∧ (applyOps i ops h i).finishCount
        = (h i).finishCount + (if finishAfterSetup ops then 1 else 0) := by
  induction ops with
  | nil => intro h _ _; simp [applyOps, hasSetupOp, finishAfterSetup]
  | cons o rest ih =>
    intro h hs hr
    cases o with
    | finishOp =>
      have h1 : (h i).state ≠ ELState.Setup := by rw [hs]; intro hc; cases hc
      have h2 : (h i).state ≠ ELState.Running := by rw [hs]; intro hc; cases hc
      show (applyOps i rest (taskFinish h i).1 i).setupCount = _
        ∧ (applyOps i rest (taskFinish h i).1 i).finishCount = _
      rw [taskFinish_not_alive h i h1 h2]
      simpa [hasSetupOp, finishAfterSetup] using ih h hs hr
    | setupOp =>
      have hts : taskSetup h i
          = h.set i { h i with setupCount := (h i).setupCount + 1, state := ELState.Setup } := by
        unfold taskSetup
        simp [hs]
      show (applyOps i rest (taskSetup h i) i).setupCount = _
        ∧ (applyOps i rest (taskSetup h i) i).finishCount = _
      rw [hts]
      have hset : ((h.set i { h i with setupCount := (h i).setupCount + 1, state := ELState.Setup }) i).state = ELState.Setup := by
        rw [Heap.set_self]
      have hraise : ((h.set i { h i with setupCount := (h i).setupCount + 1, state := ELState.Setup }) i).finishRaises = false := by
        rw [Heap.set_self]; exact hr
      have := applyOps_setupState i rest _ hset hraise
      rw [this.1, this.2, Heap.set_self]
      simp [hasSetupOp, finishAfterSetup]

/-- C3: the `setup` hook of a task runs exactly once over any sequence of
internal `_setup`/`_finish` calls (it runs only from state `New`, and only
when some `_setup` call occurs), the `finish` hook runs exactly once (only
from a state in `{Setup, Running}`, which requires a `_finish` call after
some `_setup` call), and invoking either entry point in any other state
returns unchanged state with no error (a no-op). -/
theorem claim_C3 :
    (∀ (h : Heap) (i : Nat), (h i).state ≠ ELState.New → taskSetup h i = h)
    ∧ (∀ (h : Heap) (i : Nat),
        (h i).state ≠ ELState.Setup → (h i).state ≠ ELState.Running →
        taskFinish h i = (h, none))
    ∧ ∀ (i : Nat) (ops : List TaskOp) (h : Heap),
        (h i).state = ELState.New → (h i).finishRaises = false →
        (applyOps i ops h i).setupCount
            = (h i).setupCount + (if hasSetupOp ops then 1 else 0)
          ∧ (applyOps i ops h i).finishCount
            = (h i).finishCount + (if finishAfterSetup ops then 1 else 0) := by
  refine ⟨taskSetup_not_new, taskFinish_not_alive, ?_⟩
  intro i ops h hs hr
  exact applyOps_newState i ops h hs hr

/-- C3 witness: a fresh task subjected to the call sequence
`[_finish, _setup, _setup, _finish, _finish]` runs its setup hook exactly
once and its finish hook exactly once. -/
theorem claim_C3_witness :
    (applyOps 0 [TaskOp.finishOp, TaskOp.setupOp, TaskOp.setupOp,
        TaskOp.finishOp, TaskOp.finishOp] (fun _ => {}) 0).setupCount = 1
    ∧ (applyOps 0 [TaskOp.finishOp, TaskOp.setupOp, TaskOp.setupOp,
        TaskOp.finishOp, TaskOp.finishOp] (fun _ => {}) 0).finishCount = 1 := by
  have h := claim_C3.2.2 0
    [TaskOp.finishOp, TaskOp.setupOp, TaskOp.setupOp, TaskOp.finishOp, TaskOp.finishOp]
    (fun _ => {}) rfl rfl
  exact ⟨h.1.trans (by decide), h.2.trans (by decide)⟩

/-! ### Construction (C1) -/

/-- C1 counterexample: constructing the scheduler with the negative target
rate `-1` does not fail; it succeeds and sets `seconds_per_frame = -1`
(the code performs no rate validation), refuting the claim that every
`target_rate ≤ 0` fails construction with an InvalidConfiguration
condition. -/
theorem claim_C1_counterexample : getSpf (mkEventLoop (-1) []) = some (-1) := by
  norm_num [mkEventLoop, getSpf]

/-- C1 amended: for every nonzero target rate — including negative ones —
construction succeeds and sets `seconds_per_frame = 1/target_rate`; only a
target rate of exactly 0 fails, with a division-by-zero error rather than
an InvalidConfiguration condition. -/
theorem claim_C1_amended (r : ℚ) (ts : List Nat) :
    (r ≠ 0 → getSpf (mkEventLoop r ts) = some (1 / r))
    ∧ mkEventLoop 0 ts = .error .zeroDivision := by
  constructor
  · intro hr
    simp [mkEventLoop, getSpf, hr]
  · simp [mkEventLoop]

/-- C1 amended witness: at target rate 4 construction yields
`seconds_per_frame = 1/4`, and at rate 0 it raises. -/
theorem claim_C1_amended_witness :
    getSpf (mkEventLoop 4 []) = some (1 / 4)
    ∧ mkEventLoop 0 [] = .error .zeroDivision :=
  ⟨(claim_C1_amended 4 []).1 (by norm_num), (claim_C1_amended 0 []).2⟩

/-! ### The XOR cipher round-trip (C10) -/

theorem decBytes_encBytes (s : List Nat) : ∀ key : Nat,
    decBytes key (encBytes key s) = s := by
  induction s with
  | nil => intro key; rfl
  | cons b rest ih =>
    intro key
    show (key ^^^ (key ^^^ b)) :: decBytes (key ^^^ b) (encBytes (key ^^^ b) rest)
        = b :: rest
    rw [ih (key ^^^ b), ← Nat.xor_assoc, Nat.xor_self, Nat.zero_xor]

/-- C10: the byte-stream XOR cipher round-trips: for every ASCII byte
sequence `s`, `dec (enc s)` succeeds and returns `s` (the key is chained
through the ciphertext on encryption and recovered from the ciphertext on
decryption, starting from `0xAB`). -/
theorem claim_C10 (s : List Nat) (hs : ∀ b ∈ s, b < 128) :
    dec (enc s) = some s := by
  unfold dec enc
  rw [decBytes_encBytes s 0xAB]
  simp only [List.all_eq_true, decide_eq_true_eq]
  rw [if_pos hs]

/-- C10 witness: the ASCII bytes of "hi" round-trip through the cipher. -/
theorem claim_C10_witness : dec (enc [104, 105]) = some [104, 105] :=
  claim_C10 [104, 105] (by decide)

/-! ### Scheduling before the loop runs (C6) -/

/-- C6: evaluation at the failing input.  On a freshly constructed loop
(`run()` never called: the `run` attribute is unset and the loop state is
`New`), `schedule` nonetheless runs the task's setup hook immediately —
because the expression `self.run` resolves to the truthy bound method —
and appends the task at the tail.  The claim (deferral of setup until
`run` starts) is the documented intent but not what the code does. -/
theorem claim_C6_bug :
    wC6.el.run = none
    ∧ wC6.el.state = ELState.New
    ∧ ((schedule wC6 0).heap 0).setupCount = 1
    ∧ ((schedule wC6 0).heap 0).state = ELState.Setup
    ∧ (schedule wC6 0).el.tasks = [0] := by
  refine ⟨rfl, rfl, ?_, ?_, rfl⟩ <;> rfl

/-! ### Unscheduling (C9) -/

/-- C9 counterexample: on a running loop, unscheduling the absent task `5`
raises NotFound as claimed, but only after having already invoked the
task's finish hook and moved it to `Finished` — refuting the claim that a
failed `unschedule` leaves the task unchanged and never runs the finish
hook of an absent task. -/
theorem claim_C9_counterexample :
    (unschedule wC9 5).2 = some PyErr.notFound
    ∧ ((unschedule wC9 5).1.heap 5).finishCount = 1
    ∧ ((unschedule wC9 5).1.heap 5).state = ELState.Finished := by
  refine ⟨rfl, rfl, rfl⟩

/-- C9 amended: whenever the `run` attribute is truthy (which includes the
running loop and, due to the method-shadowing quirk, a never-run loop),
`unschedule` first invokes the task's finish hook unconditionally — before
checking membership.  A present task is then removed (first occurrence,
order of the others preserved) with no error; an absent task raises a
NotFound condition, but its finish hook has already run and its state has
already moved to `Finished`. -/
theorem claim_C9_amended (w : World) (u : Nat)
    (ht : truthy w.el.run = true)
    (hS : (w.heap u).state = ELState.Setup ∨ (w.heap u).state = ELState.Running)
    (hR : (w.heap u).finishRaises = false) :
    ((unschedule w u).1.heap u).finishCount = (w.heap u).finishCount + 1
    ∧ ((unschedule w u).1.heap u).state = ELState.Finished
    ∧ (u ∈ w.el.tasks →
        (unschedule w u).2 = none
        ∧ (unschedule w u).1.el.tasks = w.el.tasks.erase u)
    ∧ (u ∉ w.el.tasks →
        (unschedule w u).2 = some PyErr.notFound
        ∧ (unschedule w u).1.el.tasks = w.el.tasks) := by
  have htf : taskFinish w.heap u
      = (w.heap.set u { w.heap u with finishCount := (w.heap u).finishCount + 1, state := ELState.Finished }, none) := by
    unfold taskFinish
    simp [hS, hR]
  unfold unschedule
  rw [ht]
  simp only [if_true, htf]
  by_cases hm : u ∈ w.el.tasks
  · simp [hm, Heap.set_self]
  · simp [hm, Heap.set_self]

/-- C9 amended witness: unscheduling the present task `1` from the running
scenario loop removes it with no error, after running its finish hook. -/
theorem claim_C9_amended_witness :
    ((unschedule wC9 1).1.heap 1).finishCount = 1
    ∧ ((unschedule wC9 1).1.heap 1).state = ELState.Finished
    ∧ (unschedule wC9 1).2 = none
    ∧ (unschedule wC9 1).1.el.tasks = [] := by
  have h := claim_C9_amended wC9 1 rfl (Or.inl rfl) rfl
  have hmem : (1 : Nat) ∈ wC9.el.tasks := by decide
  refine ⟨h.1, h.2.1, (h.2.2.1 hmem).1, ?_⟩
  rw [(h.2.2.1 hmem).2]
  rfl

/-! ### The bulk-finish teardown pass (C7) -/

/-- C7 counterexample: in the teardown pass over `[0, 1]` where task `0`'s
finish hook raises, task `1` never receives its finish call (its
`finishCount` stays 0) — refuting the claim that one task's finish failure
does not prevent the finish hooks of the remaining tasks. -/
theorem claim_C7_counterexample :
    (elFinish wC7).2 = some (PyErr.finishError 0)
    ∧ ((elFinish wC7).1.heap 1).finishCount = 0
    ∧ ((elFinish wC7).1.heap 1).state = ELState.Setup := by
  refine ⟨rfl, rfl, rfl⟩

/-- C7 amended: a failure raised by one task's finish hook aborts the
bulk-finish pass: the exception propagates, the failing task's hook has
run once (its state is left unfinished), and every task after the failing
one in the sequence is left untouched — its finish hook does not run. -/
theorem claim_C7_amended (l₁ : List Nat) (bad : Nat) (l₂ : List Nat) (h : Heap)
    (hA : ∀ t ∈ l₁, (h t).finishRaises = false)
    (hB : (h bad).finishRaises = true)
    (hC : (h bad).state = ELState.Setup ∨ (h bad).state = ELState.Running)
    (hD : bad ∉ l₁) :
    (elFinishAux (l₁ ++ bad :: l₂) h).2 = some (PyErr.finishError bad)
    ∧ ((elFinishAux (l₁ ++ bad :: l₂) h).1 bad).finishCount = (h bad).finishCount + 1
    ∧ ((elFinishAux (l₁ ++ bad :: l₂) h).1 bad).state = (h bad).state
    ∧ ∀ t, t ∉ l₁ → t ≠ bad → (elFinishAux (l₁ ++ bad :: l₂) h).1 t = h t := by
  induction l₁ generalizing h with
  | nil =>
    have htf : taskFinish h bad
        = (h.set bad { h bad with finishCount := (h bad).finishCount + 1 }, some (.finishError bad)) := by
      unfold taskFinish
      simp [hC, hB]
    have hred : elFinishAux (bad :: l₂) h
        = (h.set bad { h bad with finishCount := (h bad).finishCount + 1 }, some (.finishError bad)) := by
      unfold elFinishAux
      rw [htf]
    simp only [List.nil_append]
    rw [hred]
    refine ⟨rfl, ?_, ?_, ?_⟩
    · simp [Heap.set]
    · simp [Heap.set]
    · intro t _ htb
      simp [Heap.set, htb]
  | cons a rest ih =>
    have hra : (h a).finishRaises = false := hA a (List.mem_cons_self a rest)
    have hstep : (taskFinish h a).2 = none := by
      unfold taskFinish
      split
      · rw [hra]; simp
      · rfl
    have hbadne : bad ≠ a := by
      intro hc; exact hD (hc ▸ List.mem_cons_self a rest)
    simp only [List.cons_append]
    show (elFinishAux (a :: (rest ++ bad :: l₂)) h).2 = _ ∧ _
    unfold elFinishAux
    rcases htf : taskFinish h a with ⟨h1, e1⟩
    cases e1 with
    | some e =>
      exfalso
      have : (taskFinish h a).2 = some e := by rw [htf]
      rw [hstep] at this
      cases this
    | none =>
      have h1eq : h1 = (taskFinish h a).1 := by rw [htf]
      have hA' : ∀ t ∈ rest, (h1 t).finishRaises = false := by
        intro t htr
        rw [h1eq, taskFinish_finishRaises]
        exact hA t (List.mem_cons_of_mem a htr)
      have hB' : (h1 bad).finishRaises = true := by
        rw [h1eq, taskFinish_finishRaises]; exact hB
      have hbad1 : h1 bad = h bad := by
        rw [h1eq]; exact taskFinish_ne h hbadne
      have hC' : (h1 bad).state = ELState.Setup ∨ (h1 bad).state = ELState.Running := by
        rw [hbad1]; exact hC
      have hD' : bad ∉ rest := fun hc => hD (List.mem_cons_of_mem a hc)
      have hrec := ih h1 hA' hB' hC' hD'
      refine ⟨hrec.1, ?_, ?_, ?_⟩
      · rw [hrec.2.1, hbad1]
      · rw [hrec.2.2.1, hbad1]
      · intro t htm htb
        have hta : t ≠ a := fun hc => htm (hc ▸ List.mem_cons_self a rest)
        have htrest : t ∉ rest := fun hc => htm (List.mem_cons_of_mem a hc)
        rw [hrec.2.2.2 t htrest htb, h1eq]
        exact taskFinish_ne h hta

/-- C7 amended witness: the scenario teardown over `[0, 1]` with task `0`
raising leaves task `1`'s object untouched and surfaces the finish error. -/
theorem claim_C7_amended_witness :
    (elFinishAux [0, 1] wC7.heap).2 = some (PyErr.finishError 0)
    ∧ (elFinishAux [0, 1] wC7.heap).1 1 = wC7.heap 1 := by
  have h := claim_C7_amended [] 0 [1] wC7.heap (by intro t ht; cases ht) rfl
    (Or.inl rfl) (by intro hc; cases hc)
  exact ⟨h.1, h.2.2.2 1 (by intro hc; cases hc) (by decide)⟩

/-! ### Tick-pass step analysis -/

theorem visitUpd_ne (h : Heap) {tid v : Nat} (f : Nat) (hv : v ≠ tid) :
    visitUpd h tid f v = h v := by
  unfold visitUpd
  exact Heap.set_ne h _ hv

theorem visitUpd_self (h : Heap) (tid f : Nat) :
    visitUpd h tid f tid
      = { h tid with tickCount := (h tid).tickCount + 1, tickedFrames := (h tid).tickedFrames ++ [f] } := by
  unfold visitUpd
  exact Heap.set_self h tid _

theorem visitUpd_beh (h : Heap) (tid f v : Nat) : (visitUpd h tid f v).beh = (h v).beh := by
  by_cases hv : v = tid
  · subst hv; rw [visitUpd_self]
  · rw [visitUpd_ne h f hv]

theorem visitUpd_finishRaises (h : Heap) (tid f v : Nat) :
    (visitUpd h tid f v).finishRaises = (h v).finishRaises := by
  by_cases hv : v = tid
  · subst hv; rw [visitUpd_self]
  · rw [visitUpd_ne h f hv]

theorem visitUpd_state (h : Heap) (tid f v : Nat) :
    (visitUpd h tid f v).state = (h v).state := by
  by_cases hv : v = tid
  · subst hv; rw [visitUpd_self]
  · rw [visitUpd_ne h f hv]

theorem visitUpd_finishCount (h : Heap) (tid f v : Nat) :
    (visitUpd h tid f v).finishCount = (h v).finishCount := by
  by_cases hv : v = tid
  · subst hv; rw [visitUpd_self]
  · rw [visitUpd_ne h f hv]

theorem schedHeap_ne (h : Heap) (r : Option Bool) {u v : Nat} (hv : v ≠ u) :
    (if truthy r then taskSetup h u else h) v = h v := by
  split
  · exact taskSetup_ne h hv
  · rfl

theorem schedHeap_beh (h : Heap) (r : Option Bool) (u v : Nat) :
    ((if truthy r then taskSetup h u else h) v).beh = (h v).beh := by
  split
  · exact taskSetup_beh h u v
  · rfl

theorem schedHeap_finishRaises (h : Heap) (r : Option Bool) (u v : Nat) :
    ((if truthy r then taskSetup h u else h) v).finishRaises = (h v).finishRaises := by
  split
  · exact taskSetup_finishRaises h u v
  · rfl

theorem schedHeap_tickCount (h : Heap) (r : Option Bool) (u v : Nat) :
    ((if truthy r then taskSetup h u else h) v).tickCount = (h v).tickCount := by
  split
  · exact taskSetup_tickCount h u v
  · rfl

theorem schedHeap_tickedFrames (h : Heap) (r : Option Bool) (u v : Nat) :
    ((if truthy r then taskSetup h u else h) v).tickedFrames = (h v).tickedFrames := by
  split
  · exact taskSetup_tickedFrames h u v
  · rfl

theorem stepTask_inl_spec {f : Nat} {s s1 : PassSt} (h : stepTask f s = Sum.inl s1) :
    ∃ tid rest app kadd,
      s.pending = tid :: rest
      ∧ s1.done = s.done ++ [tid]
      ∧ s1.pending = rest ++ app
      ∧ s1.keep = s.keep ++ kadd
      ∧ (kadd = [] ∨ kadd = [tid])
      ∧ (app = [] ∨ ∃ u c, (s.heap tid).beh ((s.heap tid).tickCount) = TickEff.schedThen u c ∧ app = [u])
      ∧ (∀ v, (s1.heap v).beh = (s.heap v).beh)
      ∧ (∀ v, (s1.heap v).finishRaises = (s.heap v).finishRaises)
      ∧ (∀ v, v ≠ tid → (s1.heap v).tickCount = (s.heap v).tickCount)
      ∧ (∀ v, v ≠ tid → (s1.heap v).tickedFrames = (s.heap v).tickedFrames)
      ∧ (s1.heap tid).tickedFrames = (s.heap tid).tickedFrames ++ [f]
      ∧ (s1.heap tid).tickCount = (s.heap tid).tickCount + 1
      ∧ (∀ v, v ≠ tid →
          (∀ u c, (s.heap tid).beh ((s.heap tid).tickCount) = TickEff.schedThen u c → v ≠ u) →
          s1.heap v = s.heap v) := by
  obtain ⟨hp, rn, dn, pend, kp⟩ := s
  rcases pend with _ | ⟨tid, rest⟩
  · simp [stepTask] at h
  · simp only [stepTask] at h
    cases hbeh : (hp tid).beh ((hp tid).tickCount) with
    | raiseErr =>
      rw [hbeh] at h
      simp at h
    | ret cont =>
      rw [hbeh] at h
      simp only [afterTick] at h
      cases cont with
      | true =>
        obtain rfl := Sum.inl.inj h
        dsimp only
        refine ⟨tid, rest, [], [tid], rfl, rfl, by simp, rfl, Or.inr rfl, Or.inl rfl,
          fun v => visitUpd_beh _ _ _ _, fun v => visitUpd_finishRaises _ _ _ _,
          ?_, ?_, ?_, ?_, ?_⟩
        · intro v hv
          rw [visitUpd_ne hp f hv]
        · intro v hv
          rw [visitUpd_ne hp f hv]
        · rw [visitUpd_self]
        · rw [visitUpd_self]
        · intro v hv _
          exact visitUpd_ne hp f hv
      | false =>
        rcases htf : taskFinish (visitUpd hp tid f) tid with ⟨h3, oe⟩
        rw [htf] at h
        cases oe with
        | some e => simp at h
        | none =>
          obtain rfl := Sum.inl.inj h
          have h3eq : h3 = (taskFinish (visitUpd hp tid f) tid).1 := by rw [htf]
          dsimp only
          refine ⟨tid, rest, [], [], rfl, rfl, by simp, by simp, Or.inl rfl, Or.inl rfl,
            ?_, ?_, ?_, ?_, ?_, ?_, ?_⟩
          · intro v
            rw [h3eq, taskFinish_beh, visitUpd_beh]
          · intro v
            rw [h3eq, taskFinish_finishRaises, visitUpd_finishRaises]
          · intro v hv
            rw [h3eq, taskFinish_tickCount, visitUpd_ne hp f hv]
          · intro v hv
            rw [h3eq, taskFinish_tickedFrames, visitUpd_ne hp f hv]
          · rw [h3eq, taskFinish_tickedFrames, visitUpd_self]
          · rw [h3eq, taskFinish_tickCount, visitUpd_self]
          · intro v hv _
            rw [h3eq, taskFinish_ne _ hv, visitUpd_ne hp f hv]
    | schedThen u c =>
      rw [hbeh] at h
      simp only [afterTick] at h
      cases c with
      | true =>
        obtain rfl := Sum.inl.inj h
        dsimp only
        refine ⟨tid, rest, [u], [tid], rfl, rfl, rfl, rfl, Or.inr rfl,
          Or.inr ⟨u, true, hbeh, rfl⟩,
          ?_, ?_, ?_, ?_, ?_, ?_, ?_⟩
        · intro v
          rw [schedHeap_beh, visitUpd_beh]
        · intro v
          rw [schedHeap_finishRaises, visitUpd_finishRaises]
        · intro v hv
          rw [schedHeap_tickCount, visitUpd_ne hp f hv]
        · intro v hv
          rw [schedHeap_tickedFrames, visitUpd_ne hp f hv]
        · rw [schedHeap_tickedFrames, visitUpd_self]
        · rw [schedHeap_tickCount, visitUpd_self]
        · intro v hv hguard
          have hvu : v ≠ u := hguard u true hbeh
          rw [schedHeap_ne _ _ hvu, visitUpd_ne hp f hv]
      | false =>
        rcases htf : taskFinish (if truthy rn then taskSetup (visitUpd hp tid f) u
            else visitUpd hp tid f) tid with ⟨h3, oe⟩
        rw [htf] at h
        cases oe with
        | some e => simp at h
        | none =>
          obtain rfl := Sum.inl.inj h
          have h3eq : h3 = (taskFinish (if truthy rn then taskSetup (visitUpd hp tid f) u
              else visitUpd hp tid f) tid).1 := by rw [htf]
          dsimp only
          refine ⟨tid, rest, [u], [], rfl, rfl, rfl, by simp, Or.inl rfl,
            Or.inr ⟨u, false, hbeh, rfl⟩,
            ?_, ?_, ?_, ?_, ?_, ?_, ?_⟩
          · intro v
            rw [h3eq, taskFinish_beh, schedHeap_beh, visitUpd_beh]
          · intro v
            rw [h3eq, taskFinish_finishRaises, schedHeap_finishRaises, visitUpd_finishRaises]
          · intro v hv
            rw [h3eq, taskFinish_tickCount, schedHeap_tickCount, visitUpd_ne hp f hv]
          · intro v hv
            rw [h3eq, taskFinish_tickedFrames, schedHeap_tickedFrames, visitUpd_ne hp f hv]
          · rw [h3eq, taskFinish_tickedFrames, schedHeap_tickedFrames, visitUpd_self]
          · rw [h3eq, taskFinish_tickCount, schedHeap_tickCount, visitUpd_self]
          · intro v hv hguard
            have hvu : v ≠ u := hguard u false hbeh
            rw [h3eq, taskFinish_ne _ hv, schedHeap_ne _ _ hvu, visitUpd_ne hp f hv]
    | stopThen c =>
      rw [hbeh] at h
      simp only [afterTick] at h
      cases c with
      | true =>
        obtain rfl := Sum.inl.inj h
        dsimp only
        refine ⟨tid, rest, [], [tid], rfl, rfl, by simp, rfl, Or.inr rfl, Or.inl rfl,
          fun v => visitUpd_beh _ _ _ _, fun v => visitUpd_finishRaises _ _ _ _,
          ?_, ?_, ?_, ?_, ?_⟩
        · intro v hv
          rw [visitUpd_ne hp f hv]
        · intro v hv
          rw [visitUpd_ne hp f hv]
        · rw [visitUpd_self]
        · rw [visitUpd_self]
        · intro v hv _
          exact visitUpd_ne hp f hv
      | false =>
        rcases htf : taskFinish (visitUpd hp tid f) tid with ⟨h3, oe⟩
        rw [htf] at h
        cases oe with
        | some e => simp at h
        | none =>
          obtain rfl := Sum.inl.inj h
          have h3eq : h3 = (taskFinish (visitUpd hp tid f) tid).1 := by rw [htf]
          dsimp only
          refine ⟨tid, rest, [], [], rfl, rfl, by simp, by simp, Or.inl rfl, Or.inl rfl,
            ?_, ?_, ?_, ?_, ?_, ?_, ?_⟩
          · intro v
            rw [h3eq, taskFinish_beh, visitUpd_beh]
          · intro v
            rw [h3eq, taskFinish_finishRaises, visitUpd_finishRaises]
          · intro v hv
            rw [h3eq, taskFinish_tickCount, visitUpd_ne hp f hv]
          · intro v hv
            rw [h3eq, taskFinish_tickedFrames, visitUpd_ne hp f hv]
          · rw [h3eq, taskFinish_tickedFrames, visitUpd_self]
          · rw [h3eq, taskFinish_tickCount, visitUpd_self]
          · intro v hv _
            rw [h3eq, taskFinish_ne _ hv, visitUpd_ne hp f hv]

theorem stepTask_inr_spec {f : Nat} {s : PassSt} {out : PassOut} (h : stepTask f s = Sum.inr out) :
    (s.pending = [] ∧ out = .ok s.heap s.run s.keep s.done)
    ∨ ∃ tid rest app e h2 r2,
        s.pending = tid :: rest
        ∧ out = .err h2 r2 (s.done ++ tid :: (rest ++ app)) (s.done ++ [tid]) e
        ∧ (app = [] ∨ ∃ u c, (s.heap tid).beh ((s.heap tid).tickCount) = TickEff.schedThen u c ∧ app = [u])
        ∧ (∀ v, (h2 v).beh = (s.heap v).beh)
        ∧ (∀ v, (h2 v).finishRaises = (s.heap v).finishRaises)
        ∧ (∀ v, v ≠ tid → (h2 v).tickCount = (s.heap v).tickCount)
        ∧ (∀ v, v ≠ tid → (h2 v).tickedFrames = (s.heap v).tickedFrames)
        ∧ (h2 tid).tickedFrames = (s.heap tid).tickedFrames ++ [f]
        ∧ (∀ v, v ≠ tid →
            (∀ u c, (s.heap tid).beh ((s.heap tid).tickCount) = TickEff.schedThen u c → v ≠ u) →
            h2 v = s.heap v) := by
  obtain ⟨hp, rn, dn, pend, kp⟩ := s
  rcases pend with _ | ⟨tid, rest⟩
  · left
    simp only [stepTask] at h
    obtain rfl := Sum.inr.inj h
    exact ⟨rfl, rfl⟩
  · right
    simp only [stepTask] at h
    cases hbeh : (hp tid).beh ((hp tid).tickCount) with
    | raiseErr =>
      rw [hbeh] at h
      obtain rfl := Sum.inr.inj h
      refine ⟨tid, rest, [], .tickError tid, visitUpd hp tid f, rn, rfl, by simp,
        Or.inl rfl, fun v => visitUpd_beh _ _ _ _, fun v => visitUpd_finishRaises _ _ _ _,
        ?_, ?_, ?_, ?_⟩
      · intro v hv
        rw [visitUpd_ne hp f hv]
      · intro v hv
        rw [visitUpd_ne hp f hv]
      · rw [visitUpd_self]
      · intro v hv _
        exact visitUpd_ne hp f hv
    | ret cont =>
      rw [hbeh] at h
      simp only [afterTick] at h
      cases cont with
      | true => simp at h
      | false =>
        rcases htf : taskFinish (visitUpd hp tid f) tid with ⟨h3, oe⟩
        rw [htf] at h
        cases oe with
        | none => simp at h
        | some e =>
          obtain rfl := Sum.inr.inj h
          have h3eq : h3 = (taskFinish (visitUpd hp tid f) tid).1 := by rw [htf]
          refine ⟨tid, rest, [], e, h3, rn, rfl, by simp, Or.inl rfl,
            ?_, ?_, ?_, ?_, ?_, ?_⟩
          · intro v
            rw [h3eq, taskFinish_beh, visitUpd_beh]
          · intro v
            rw [h3eq, taskFinish_finishRaises, visitUpd_finishRaises]
          · intro v hv
            rw [h3eq, taskFinish_tickCount, visitUpd_ne hp f hv]
          · intro v hv
            rw [h3eq, taskFinish_tickedFrames, visitUpd_ne hp f hv]
          · rw [h3eq, taskFinish_tickedFrames, visitUpd_self]
          · intro v hv _
            rw [h3eq, taskFinish_ne _ hv, visitUpd_ne hp f hv]
    | schedThen u c =>
      rw [hbeh] at h
      simp only [afterTick] at h
      cases c with
      | true => simp at h
      | false =>
        rcases htf : taskFinish (if truthy rn then taskSetup (visitUpd hp tid f) u
            else visitUpd hp tid f) tid with ⟨h3, oe⟩
        rw [htf] at h
        cases oe with
        | none => simp at h
        | some e =>
          obtain rfl := Sum.inr.inj h
          have h3eq : h3 = (taskFinish (if truthy rn then taskSetup (visitUpd hp tid f) u
              else visitUpd hp tid f) tid).1 := by rw [htf]
          refine ⟨tid, rest, [u], e, h3, rn, rfl, by simp, Or.inr ⟨u, false, hbeh, rfl⟩,
            ?_, ?_, ?_, ?_, ?_, ?_⟩
          · intro v
            rw [h3eq, taskFinish_beh, schedHeap_beh, visitUpd_beh]
          · intro v
            rw [h3eq, taskFinish_finishRaises, schedHeap_finishRaises, visitUpd_finishRaises]
          · intro v hv
            rw [h3eq, taskFinish_tickCount, schedHeap_tickCount, visitUpd_ne hp f hv]
          · intro v hv
            rw [h3eq, taskFinish_tickedFrames, schedHeap_tickedFrames, visitUpd_ne hp f hv]
          · rw [h3eq, taskFinish_tickedFrames, schedHeap_tickedFrames, visitUpd_self]
          · intro v hv hguard
            have hvu : v ≠ u := hguard u false hbeh
            rw [h3eq, taskFinish_ne _ hv, schedHeap_ne _ _ hvu, visitUpd_ne hp f hv]
    | stopThen c =>
      rw [hbeh] at h
      simp only [afterTick] at h
      cases c with
      | true => simp at h
      | false =>
        rcases htf : taskFinish (visitUpd hp tid f) tid with ⟨h3, oe⟩
        rw [htf] at h
        cases oe with
        | none => simp at h
        | some e =>
          obtain rfl := Sum.inr.inj h
          have h3eq : h3 = (taskFinish (visitUpd hp tid f) tid).1 := by rw [htf]
          refine ⟨tid, rest, [], e, h3, some false, rfl, by simp, Or.inl rfl,
            ?_, ?_, ?_, ?_, ?_, ?_⟩
          · intro v
            rw [h3eq, taskFinish_beh, visitUpd_beh]
          · intro v
            rw [h3eq, taskFinish_finishRaises, visitUpd_finishRaises]
          · intro v hv
            rw [h3eq, taskFinish_tickCount, visitUpd_ne hp f hv]
          · intro v hv
            rw [h3eq, taskFinish_tickedFrames, visitUpd_ne hp f hv]
          · rw [h3eq, taskFinish_tickedFrames, visitUpd_self]
          · intro v hv _
            rw [h3eq, taskFinish_ne _ hv, visitUpd_ne hp f hv]

/-! ### Invariants of the whole tick pass -/

theorem pass_beh {f : Nat} : ∀ {fuel : Nat} {s : PassSt} {out : PassOut},
    tickPassAux f fuel s = some out → ∀ v, (out.heapOf v).beh = (s.heap v).beh := by
  intro fuel
  induction fuel with
  | zero => intro s out hpass; simp [tickPassAux] at hpass
  | succ n ih =>
    intro s out hpass v
    rw [tickPassAux] at hpass
    rcases hstep : stepTask f s with s1 | o
    · rw [hstep] at hpass
      obtain ⟨tid, rest, app, kadd, _, _, _, _, _, _, hbeh, _, _, _, _, _, _⟩ :=
        stepTask_inl_spec hstep
      rw [ih hpass v, hbeh v]
    · rw [hstep] at hpass
      obtain rfl := Option.some.inj hpass
      rcases stepTask_inr_spec hstep with ⟨_, rfl⟩ | ⟨tid, rest, app, e, h2, r2, _, rfl, _, hbeh, _⟩
      · rfl
      · exact hbeh v

theorem pass_finishRaises {f : Nat} : ∀ {fuel : Nat} {s : PassSt} {out : PassOut},
    tickPassAux f fuel s = some out →
    ∀ v, (out.heapOf v).finishRaises = (s.heap v).finishRaises := by
  intro fuel
  induction fuel with
  | zero => intro s out hpass; simp [tickPassAux] at hpass
  | succ n ih =>
    intro s out hpass v
    rw [tickPassAux] at hpass
    rcases hstep : stepTask f s with s1 | o
    · rw [hstep] at hpass
      obtain ⟨tid, rest, app, kadd, _, _, _, _, _, _, _, hfr, _, _, _, _, _⟩ :=
        stepTask_inl_spec hstep
      rw [ih hpass v, hfr v]
    · rw [hstep] at hpass
      obtain rfl := Option.some.inj hpass
      rcases stepTask_inr_spec hstep with ⟨_, rfl⟩ |
        ⟨tid, rest, app, e, h2, r2, _, rfl, _, _, hfr, _⟩
      · rfl
      · exact hfr v

theorem pass_visited_prefix {f : Nat} : ∀ {fuel : Nat} {s : PassSt} {out : PassOut},
    tickPassAux f fuel s = some out → ∃ d, out.visitedOf = s.done ++ d := by
  intro fuel
  induction fuel with
  | zero => intro s out hpass; simp [tickPassAux] at hpass
  | succ n ih =>
    intro s out hpass
    rw [tickPassAux] at hpass
    rcases hstep : stepTask f s with s1 | o
    · rw [hstep] at hpass
      obtain ⟨tid, rest, app, kadd, _, hdone, _, _, _, _, _, _, _, _, _, _, _⟩ :=
        stepTask_inl_spec hstep
      obtain ⟨d, hd⟩ := ih hpass
      exact ⟨tid :: d, by rw [hd, hdone]; simp⟩
    · rw [hstep] at hpass
      obtain rfl := Option.some.inj hpass
      rcases stepTask_inr_spec hstep with ⟨_, rfl⟩ |
        ⟨tid, rest, app, e, h2, r2, _, rfl, _⟩
      · exact ⟨[], by simp [PassOut.visitedOf]⟩
      · exact ⟨[tid], rfl⟩

theorem pass_unvisited {f : Nat} : ∀ {fuel : Nat} {s : PassSt} {out : PassOut},
    tickPassAux f fuel s = some out → ∀ v, v ∉ out.visitedOf →
    (out.heapOf v).tickCount = (s.heap v).tickCount
    ∧ (out.heapOf v).tickedFrames = (s.heap v).tickedFrames := by
  intro fuel
  induction fuel with
  | zero => intro s out hpass; simp [tickPassAux] at hpass
  | succ n ih =>
    intro s out hpass v hv
    rw [tickPassAux] at hpass
    rcases hstep : stepTask f s with s1 | o
    · rw [hstep] at hpass
      obtain ⟨tid, rest, app, kadd, _, hdone, _, _, _, _, _, _, htc, htf, _, _, _⟩ :=
        stepTask_inl_spec hstep
      have hvtid : v ≠ tid := by
        intro hc
        subst hc
        obtain ⟨d, hd⟩ := pass_visited_prefix hpass
        apply hv
        rw [hd, hdone]
        simp
      obtain ⟨ih1, ih2⟩ := ih hpass v hv
      exact ⟨ih1.trans (htc v hvtid), ih2.trans (htf v hvtid)⟩
    · rw [hstep] at hpass
      obtain rfl := Option.some.inj hpass
      rcases stepTask_inr_spec hstep with ⟨_, rfl⟩ |
        ⟨tid, rest, app, e, h2, r2, _, rfl, _, _, _, htc, htf, _⟩
      · exact ⟨rfl, rfl⟩
      · have hvtid : v ≠ tid := by
          intro hc
          subst hc
          apply hv
          show v ∈ _ ++ [v]
          simp
        exact ⟨htc v hvtid, htf v hvtid⟩

theorem pass_frames_mono {f : Nat} : ∀ {fuel : Nat} {s : PassSt} {out : PassOut},
    tickPassAux f fuel s = some out →
    ∀ v, f ∈ (s.heap v).tickedFrames → f ∈ (out.heapOf v).tickedFrames := by
  intro fuel
  induction fuel with
  | zero => intro s out hpass; simp [tickPassAux] at hpass
  | succ n ih =>
    intro s out hpass v hv
    rw [tickPassAux] at hpass
    rcases hstep : stepTask f s with s1 | o
    · rw [hstep] at hpass
      obtain ⟨tid, rest, app, kadd, _, _, _, _, _, _, _, _, _, htf, htfself, _, _⟩ :=
        stepTask_inl_spec hstep
      apply ih hpass
      by_cases hvt : v = tid
      · subst hvt
        rw [htfself]
        simp [hv]
      · rw [htf v hvt]
        exact hv
    · rw [hstep] at hpass
      obtain rfl := Option.some.inj hpass
      rcases stepTask_inr_spec hstep with ⟨_, rfl⟩ |
        ⟨tid, rest, app, e, h2, r2, _, rfl, _, _, _, _, htf, htfself, _⟩
      · exact hv
      · by_cases hvt : v = tid
        · subst hvt
          show f ∈ (h2 v).tickedFrames
          rw [htfself]
          simp [hv]
        · show f ∈ (h2 v).tickedFrames
          rw [htf v hvt]
          exact hv

theorem pass_visited_ticked {f : Nat} : ∀ {fuel : Nat} {s : PassSt} {out : PassOut},
    tickPassAux f fuel s = some out →
    (∀ v ∈ s.done, f ∈ (s.heap v).tickedFrames) →
    ∀ v ∈ out.visitedOf, f ∈ (out.heapOf v).tickedFrames := by
  intro fuel
  induction fuel with
  | zero => intro s out hpass; simp [tickPassAux] at hpass
  | succ n ih =>
    intro s out hpass hpre v hv
    rw [tickPassAux] at hpass
    rcases hstep : stepTask f s with s1 | o
    · rw [hstep] at hpass
      obtain ⟨tid, rest, app, kadd, _, hdone, _, _, _, _, _, _, _, htf, htfself, _, _⟩ :=
        stepTask_inl_spec hstep
      apply ih hpass _ v hv
      intro u hu
      rw [hdone] at hu
      by_cases hut : u = tid
      · subst hut
        rw [htfself]
        simp
      · rw [htf u hut]
        rcases List.mem_append.mp hu with hud | hus
        · exact hpre u hud
        · exact absurd (List.mem_singleton.mp hus) hut
    · rw [hstep] at hpass
      obtain rfl := Option.some.inj hpass
      rcases stepTask_inr_spec hstep with ⟨_, rfl⟩ |
        ⟨tid, rest, app, e, h2, r2, _, rfl, _, _, _, _, htf, htfself, _⟩
      · exact hpre v hv
      · show f ∈ (h2 v).tickedFrames
        by_cases hvt : v = tid
        · subst hvt
          rw [htfself]
          simp
        · rw [htf v hvt]
          rcases List.mem_append.mp hv with hud | hus
          · exact hpre v hud
          · exact absurd (List.mem_singleton.mp hus) hvt

theorem pass_keep_sublist {f : Nat} : ∀ {fuel : Nat} {s : PassSt}
    {h1 : Heap} {ra : Option Bool} {kp vl : List Nat},
    tickPassAux f fuel s = some (.ok h1 ra kp vl) → List.Sublist s.keep s.done → List.Sublist kp vl := by
  intro fuel
  induction fuel with
  | zero => intro s h1 ra kp vl hpass; simp [tickPassAux] at hpass
  | succ n ih =>
    intro s h1 ra kp vl hpass hsub
    rw [tickPassAux] at hpass
    rcases hstep : stepTask f s with s1 | o
    · rw [hstep] at hpass
      obtain ⟨tid, rest, app, kadd, _, hdone, _, hkeep, hkadd, _, _, _, _, _, _, _, _⟩ :=
        stepTask_inl_spec hstep
      apply ih hpass
      rw [hdone, hkeep]
      rcases hkadd with rfl | rfl
      · simp only [List.append_nil]
        exact hsub.trans (List.sublist_append_left _ _)
      · exact hsub.append (List.Sublist.refl _)
    · rw [hstep] at hpass
      obtain hout := Option.some.inj hpass
      rcases stepTask_inr_spec hstep with ⟨_, rfl⟩ |
        ⟨tid, rest, app, e, h2, r2, _, rfl, _⟩
      · obtain ⟨_, _, rfl, rfl⟩ := PassOut.ok.inj hout
        exact hsub
      · exact absurd hout (by simp)

theorem pass_visited_shape {f : Nat} : ∀ {fuel : Nat} {s : PassSt}
    {h1 : Heap} {ra : Option Bool} {kp vl : List Nat},
    tickPassAux f fuel s = some (.ok h1 ra kp vl) →
    ∃ ap, vl = s.done ++ s.pending ++ ap := by
  intro fuel
  induction fuel with
  | zero => intro s h1 ra kp vl hpass; simp [tickPassAux] at hpass
  | succ n ih =>
    intro s h1 ra kp vl hpass
    rw [tickPassAux] at hpass
    rcases hstep : stepTask f s with s1 | o
    · rw [hstep] at hpass
      obtain ⟨tid, rest, app, kadd, hpend, hdone, hpnew, _, _, _, _, _, _, _, _, _, _⟩ :=
        stepTask_inl_spec hstep
      obtain ⟨ap, hap⟩ := ih hpass
      refine ⟨app ++ ap, ?_⟩
      rw [hap, hdone, hpnew, hpend]
      simp
    · rw [hstep] at hpass
      obtain hout := Option.some.inj hpass
      rcases stepTask_inr_spec hstep with ⟨hpend, rfl⟩ |
        ⟨tid, rest, app, e, h2, r2, _, rfl, _⟩
      · obtain ⟨_, _, _, rfl⟩ := PassOut.ok.inj hout
        rw [hpend]
        exact ⟨[], by simp⟩
      · exact absurd hout (by simp)

theorem pass_untouched {f tid : Nat} : ∀ {fuel : Nat} {s : PassSt} {out : PassOut},
    tickPassAux f fuel s = some out →
    (∀ v k c, (s.heap v).beh k ≠ TickEff.schedThen tid c) →
    tid ∉ s.pending → tid ∉ s.keep →
    out.heapOf tid = s.heap tid
    ∧ (∀ h1 ra kp vl, out = .ok h1 ra kp vl → tid ∉ kp) := by
  intro fuel
  induction fuel with
  | zero => intro s out hpass; simp [tickPassAux] at hpass
  | succ n ih =>
    intro s out hpass hNS hpend hkeep
    rw [tickPassAux] at hpass
    rcases hstep : stepTask f s with s1 | o
    · rw [hstep] at hpass
      obtain ⟨tid2, rest, app, kadd, hp2, hdone, hpnew, hknew, hkadd, happ, hbeh, _, _, _, _,
        _, huntouch⟩ := stepTask_inl_spec hstep
      rw [hp2] at hpend
      have hne : tid ≠ tid2 := fun hc => hpend (hc ▸ List.mem_cons_self _ _)
      have hnr : tid ∉ rest := fun hc => hpend (List.mem_cons_of_mem _ hc)
      have hna : tid ∉ app := by
        rcases happ with rfl | ⟨u, c, hb, rfl⟩
        · simp
        · intro hc
          rw [List.mem_singleton] at hc
          exact hNS tid2 ((s.heap tid2).tickCount) c (hc ▸ hb)
      have hNS1 : ∀ v k c, (s1.heap v).beh k ≠ TickEff.schedThen tid c := by
        intro v k c
        rw [hbeh v]
        exact hNS v k c
      have hpend1 : tid ∉ s1.pending := by
        rw [hpnew]
        intro hc
        rcases List.mem_append.mp hc with hc | hc
        · exact hnr hc
        · exact hna hc
      have hkeep1 : tid ∉ s1.keep := by
        rw [hknew]
        intro hc
        rcases List.mem_append.mp hc with hc | hc
        · exact hkeep hc
        · rcases hkadd with rfl | rfl
          · cases hc
          · exact hne (List.mem_singleton.mp hc)
      have hheap1 : s1.heap tid = s.heap tid :=
        huntouch tid hne (fun u c hb hc => hNS tid2 ((s.heap tid2).tickCount) c (hc ▸ hb))
      obtain ⟨ih1, ih2⟩ := ih hpass hNS1 hpend1 hkeep1
      exact ⟨ih1.trans hheap1, ih2⟩
    · rw [hstep] at hpass
      obtain rfl := Option.some.inj hpass
      rcases stepTask_inr_spec hstep with ⟨_, rfl⟩ |
        ⟨tid2, rest, app, e, h2, r2, hp2, rfl, happ, _, _, _, _, _, huntouch⟩
      · refine ⟨rfl, ?_⟩
        intro h1 ra kp vl heq
        obtain ⟨_, _, rfl, _⟩ := PassOut.ok.inj heq
        exact hkeep
      · rw [hp2] at hpend
        have hne : tid ≠ tid2 := fun hc => hpend (hc ▸ List.mem_cons_self _ _)
        refine ⟨?_, ?_⟩
        · exact huntouch tid hne
            (fun u c hb hc => hNS tid2 ((s.heap tid2).tickCount) c (hc ▸ hb))
        · intro h1 ra kp vl heq
          cases heq

theorem pass_not_visited {f tid : Nat} : ∀ {fuel : Nat} {s : PassSt} {out : PassOut},
    tickPassAux f fuel s = some out →
    (∀ v k c, (s.heap v).beh k ≠ TickEff.schedThen tid c) →
    tid ∉ s.pending → tid ∉ s.keep → tid ∉ s.done →
    tid ∉ out.visitedOf ∧ tid ∉ out.tasksOf := by
  intro fuel
  induction fuel with
  | zero => intro s out hpass; simp [tickPassAux] at hpass
  | succ n ih =>
    intro s out hpass hNS hpend hkeep hdone
    rw [tickPassAux] at hpass
    rcases hstep : stepTask f s with s1 | o
    · rw [hstep] at hpass
      obtain ⟨tid2, rest, app, kadd, hp2, hdnew, hpnew, hknew, hkadd, happ, hbeh, _, _, _, _,
        _, huntouch⟩ := stepTask_inl_spec hstep
      rw [hp2] at hpend
      have hne : tid ≠ tid2 := fun hc => hpend (hc ▸ List.mem_cons_self _ _)
      have hnr : tid ∉ rest := fun hc => hpend (List.mem_cons_of_mem _ hc)
      have hna : tid ∉ app := by
        rcases happ with rfl | ⟨u, c, hb, rfl⟩
        · simp
        · intro hc
          rw [List.mem_singleton] at hc
          exact hNS tid2 ((s.heap tid2).tickCount) c (hc ▸ hb)
      have hNS1 : ∀ v k c, (s1.heap v).beh k ≠ TickEff.schedThen tid c := by
        intro v k c
        rw [hbeh v]
        exact hNS v k c
      have hpend1 : tid ∉ s1.pending := by
        rw [hpnew]
        intro hc
        rcases List.mem_append.mp hc with hc | hc
        · exact hnr hc
        · exact hna hc
      have hkeep1 : tid ∉ s1.keep := by
        rw [hknew]
        intro hc
        rcases List.mem_append.mp hc with hc | hc
        · exact hkeep hc
        · rcases hkadd with rfl | rfl
          · cases hc
          · exact hne (List.mem_singleton.mp hc)
      have hdone1 : tid ∉ s1.done := by
        rw [hdnew]
        intro hc
        rcases List.mem_append.mp hc with hc | hc
        · exact hdone hc
        · exact hne (List.mem_singleton.mp hc)
      exact ih hpass hNS1 hpend1 hkeep1 hdone1
    · rw [hstep] at hpass
      obtain rfl := Option.some.inj hpass
      rcases stepTask_inr_spec hstep with ⟨_, rfl⟩ |
        ⟨tid2, rest, app, e, h2, r2, hp2, rfl, happ, _⟩
      · exact ⟨hdone, hkeep⟩
      · rw [hp2] at hpend
        have hne : tid ≠ tid2 := fun hc => hpend (hc ▸ List.mem_cons_self _ _)
        have hnr : tid ∉ rest := fun hc => hpend (List.mem_cons_of_mem _ hc)
        have hna : tid ∉ app := by
          rcases happ with rfl | ⟨u, c, hb, rfl⟩
          · simp
          · intro hc
            rw [List.mem_singleton] at hc
            exact hNS tid2 ((s.heap tid2).tickCount) c (hc ▸ hb)
        constructor
        · show tid ∉ s.done ++ [tid2]
          intro hc
          rcases List.mem_append.mp hc with hc | hc
          · exact hdone hc
          · exact hne (List.mem_singleton.mp hc)
        · show tid ∉ s.done ++ tid2 :: (rest ++ app)
          intro hc
          rcases List.mem_append.mp hc with hc | hc
          · exact hdone hc
          · rcases List.mem_cons.mp hc with hc | hc
            · exact hne hc
            · rcases List.mem_append.mp hc with hc | hc
              · exact hnr hc
              · exact hna hc

theorem stepTask_drop_eq {f : Nat} {s : PassSt} {tid : Nat} {rest : List Nat}
    (hpend : s.pending = tid :: rest)
    (hbeh : (s.heap tid).beh ((s.heap tid).tickCount) = TickEff.ret false)
    (hstate : (s.heap tid).state = ELState.Setup ∨ (s.heap tid).state = ELState.Running)
    (hraise : (s.heap tid).finishRaises = false) :
    stepTask f s = Sum.inl
      { heap := (visitUpd s.heap tid f).set tid
          { s.heap tid with tickCount := (s.heap tid).tickCount + 1,
                            tickedFrames := (s.heap tid).tickedFrames ++ [f],
                            finishCount := (s.heap tid).finishCount + 1,
                            state := ELState.Finished },
        run := s.run, done := s.done ++ [tid], pending := rest, keep := s.keep } := by
  obtain ⟨hp, rn, dn, pend, kp⟩ := s
  dsimp only at hpend hbeh hstate hraise ⊢
  subst hpend
  have hA : (visitUpd hp tid f) tid
      = { hp tid with tickCount := (hp tid).tickCount + 1,
                      tickedFrames := (hp tid).tickedFrames ++ [f] } := visitUpd_self hp tid f
  have htf : taskFinish (visitUpd hp tid f) tid
      = ((visitUpd hp tid f).set tid
           { hp tid with tickCount := (hp tid).tickCount + 1,
                         tickedFrames := (hp tid).tickedFrames ++ [f],
                         finishCount := (hp tid).finishCount + 1,
                         state := ELState.Finished }, none) := by
    unfold taskFinish
    rw [hA]
    rcases hstate with hst | hst <;> simp [hst, hraise]
  simp only [stepTask]
  rw [hbeh]
  simp only [afterTick]
  rw [htf]
  rfl

theorem pass_drop {f tid : Nat} : ∀ {fuel : Nat} {s : PassSt}
    {h1 : Heap} {ra : Option Bool} {kp vl : List Nat},
    tickPassAux f fuel s = some (.ok h1 ra kp vl) →
    (∀ v k c, (s.heap v).beh k ≠ TickEff.schedThen tid c) →
    s.pending.count tid = 1 → tid ∉ s.done → tid ∉ s.keep →
    (s.heap tid).beh ((s.heap tid).tickCount) = TickEff.ret false →
    ((s.heap tid).state = ELState.Setup ∨ (s.heap tid).state = ELState.Running) →
    (s.heap tid).finishRaises = false →
    (h1 tid).finishCount = (s.heap tid).finishCount + 1
    ∧ (h1 tid).state = ELState.Finished
    ∧ (h1 tid).tickCount = (s.heap tid).tickCount + 1
    ∧ (h1 tid).tickedFrames = (s.heap tid).tickedFrames ++ [f]
    ∧ tid ∉ kp := by
  intro fuel
  induction fuel with
  | zero => intro s h1 ra kp vl hpass; simp [tickPassAux] at hpass
  | succ n ih =>
    intro s h1 ra kp vl hpass hNS hcount hdone hkeep hbeh hstate hraise
    rw [tickPassAux] at hpass
    rcases hstep : stepTask f s with s1 | o
    · obtain ⟨tid2, rest, app, kadd, hp2, hdnew, hpnew, hknew, hkadd, happ, hbehp, _, _, _,
        _, _, huntouch⟩ := stepTask_inl_spec hstep
      by_cases heq : tid2 = tid
      · subst heq
        -- the visit of the dropping task itself
        have hdropeq := stepTask_drop_eq (f := f) hp2 hbeh hstate hraise
        rw [hstep] at hdropeq
        have hs1 := Sum.inl.inj hdropeq
        rw [hstep] at hpass
        have hcount' : List.count tid2 rest = 0 := by
          rw [hp2] at hcount
          simpa using hcount
        have hnr : tid2 ∉ rest := List.count_eq_zero.mp hcount'
        have hobj : s1.heap tid2
            = { s.heap tid2 with tickCount := (s.heap tid2).tickCount + 1,
                                 tickedFrames := (s.heap tid2).tickedFrames ++ [f],
                                 finishCount := (s.heap tid2).finishCount + 1,
                                 state := ELState.Finished } := by
          rw [hs1]
          exact Heap.set_self _ _ _
        have hNS1 : ∀ v k c, (s1.heap v).beh k ≠ TickEff.schedThen tid2 c := by
          intro v k c
          rw [hbehp v]
          exact hNS v k c
        have hpend1 : tid2 ∉ s1.pending := by
          rw [hs1]
          exact hnr
        have hkeep1 : tid2 ∉ s1.keep := by
          rw [hs1]
          exact hkeep
        obtain ⟨hfix, hkp⟩ := pass_untouched hpass hNS1 hpend1 hkeep1
        have hval : h1 tid2 = s1.heap tid2 := hfix
        rw [hobj] at hval
        refine ⟨?_, ?_, ?_, ?_, hkp h1 ra kp vl rfl⟩ <;> rw [hval]
      · -- some other task is visited first; all hypotheses persist
        rw [hstep] at hpass
        have hne : tid ≠ tid2 := fun hc => heq hc.symm
        rw [hp2] at hcount
        have hcrest : List.count tid rest = 1 := by
          rw [List.count_cons] at hcount
          simpa [Ne.symm hne] using hcount
        have hna : List.count tid app = 0 := by
          rcases happ with rfl | ⟨u, c, hb, rfl⟩
          · rfl
          · have : u ≠ tid := fun hc => hNS tid2 ((s.heap tid2).tickCount) c (hc ▸ hb)
            simp [List.count_singleton, this]
        have hcount1 : s1.pending.count tid = 1 := by
          rw [hpnew, List.count_append, hcrest, hna]
        have hdone1 : tid ∉ s1.done := by
          rw [hdnew]
          intro hc
          rcases List.mem_append.mp hc with hc | hc
          · exact hdone hc
          · exact hne (List.mem_singleton.mp hc)
        have hkeep1 : tid ∉ s1.keep := by
          rw [hknew]
          intro hc
          rcases List.mem_append.mp hc with hc | hc
          · exact hkeep hc
          · rcases hkadd with rfl | rfl
            · cases hc
            · exact hne (List.mem_singleton.mp hc)
        have hNS1 : ∀ v k c, (s1.heap v).beh k ≠ TickEff.schedThen tid c := by
          intro v k c
          rw [hbehp v]
          exact hNS v k c
        have hfix : s1.heap tid = s.heap tid :=
          huntouch tid hne (fun u c hb hc => hNS tid2 ((s.heap tid2).tickCount) c (hc ▸ hb))
        have hres := ih hpass hNS1 hcount1 hdone1 hkeep1
          (by rw [hfix]; exact hbeh) (by rw [hfix]; exact hstate) (by rw [hfix]; exact hraise)
        rw [hfix] at hres
        exact hres
    · rw [hstep] at hpass
      obtain hout := Option.some.inj hpass
      rcases stepTask_inr_spec hstep with ⟨hpend, rfl⟩ |
        ⟨tid2, rest, app, e, h2, r2, hp2, rfl, _⟩
      · rw [hpend] at hcount
        simp at hcount
      · exact absurd hout (by simp)

/-! ### Frame cycles and the run loop -/

theorem elFinishAux_ne {tid : Nat} : ∀ (l : List Nat) (h : Heap), tid ∉ l →
    (elFinishAux l h).1 tid = h tid := by
  intro l
  induction l with
  | nil => intro h _; rfl
  | cons a rest ih =>
    intro h htid
    have hna : tid ≠ a := fun hc => htid (hc ▸ List.mem_cons_self _ _)
    have hnr : tid ∉ rest := fun hc => htid (List.mem_cons_of_mem _ hc)
    show (match taskFinish h a with
      | (h1, some e) => (h1, some e)
      | (h1, none) => elFinishAux rest h1).1 tid = h tid
    rcases htf : taskFinish h a with ⟨h1, oe⟩
    have h1eq : h1 = (taskFinish h a).1 := by rw [htf]
    cases oe with
    | some e =>
      show h1 tid = h tid
      rw [h1eq]
      exact taskFinish_ne h hna
    | none =>
      show (elFinishAux rest h1).1 tid = h tid
      rw [ih h1 hnr, h1eq]
      exact taskFinish_ne h hna

theorem elFinish_heap (w : World) :
    (elFinish w).1.heap = (elFinishAux w.el.tasks w.heap).1 := by
  unfold elFinish
  rcases elFinishAux w.el.tasks w.heap with ⟨h1, oe⟩
  cases oe <;> rfl

theorem elTick_ok {pf : Nat} {w : World} {h1 : Heap} {ra : Option Bool} {kp vl : List Nat}
    (hp : tickPassAux w.el.frame pf (passInit w) = some (.ok h1 ra kp vl)) :
    elTick pf w
      = some ({ el := { w.el with tasks := kp, frame := w.el.frame + 1, run := ra },
                heap := h1 }, none) := by
  unfold elTick
  rw [hp]

theorem elTick_err {pf : Nat} {w : World} {h1 : Heap} {ra : Option Bool} {tn dn : List Nat}
    {e : PyErr}
    (hp : tickPassAux w.el.frame pf (passInit w) = some (.err h1 ra tn dn e)) :
    elTick pf w = some (errWorld w h1 ra tn, some e) := by
  unfold elTick
  rw [hp]
  rfl

theorem frameCycle_ok {pf : Nat} {w : World} {h1 : Heap} {ra : Option Bool} {kp vl : List Nat}
    (elapsed : Nat → ℚ)
    (hp : tickPassAux w.el.frame pf (passInit w) = some (.ok h1 ra kp vl)) :
    frameCycle pf elapsed w
      = some (afterFrame w h1 kp ra (w.el.seconds_per_frame - elapsed w.el.frame), none) := by
  unfold frameCycle
  rw [elTick_ok hp]
  rfl

theorem frameCycle_err {pf : Nat} {w : World} {h1 : Heap} {ra : Option Bool} {tn dn : List Nat}
    {e : PyErr} (elapsed : Nat → ℚ)
    (hp : tickPassAux w.el.frame pf (passInit w) = some (.err h1 ra tn dn e)) :
    frameCycle pf elapsed w = some (errWorld w h1 ra tn, some e) := by
  unfold frameCycle
  rw [elTick_err hp]

theorem runLoop_stopped {pf : Nat} {elapsed : Nat → ℚ} {w : World}
    (h : truthy w.el.run = false) :
    ∀ fuel, runLoop pf elapsed fuel w = some (w, none) := by
  intro fuel
  cases fuel <;> simp [runLoop, h]

theorem runLoop_untouched {tid : Nat} : ∀ {fuel pf : Nat} {elapsed : Nat → ℚ}
    {w w2 : World} {e : Option PyErr},
    runLoop pf elapsed fuel w = some (w2, e) →
    (∀ v k c, (w.heap v).beh k ≠ TickEff.schedThen tid c) →
    tid ∉ w.el.tasks →
    w2.heap tid = w.heap tid ∧ tid ∉ w2.el.tasks
      ∧ (∀ v, (w2.heap v).beh = (w.heap v).beh) := by
  intro fuel
  induction fuel with
  | zero =>
    intro pf elapsed w w2 e hrun hNS htid
    rw [runLoop] at hrun
    by_cases ht : truthy w.el.run = true
    · rw [if_pos ht] at hrun
      cases hrun
    · rw [if_neg ht] at hrun
      injection Option.some.inj hrun with hw he
      subst hw
      exact ⟨rfl, htid, fun v => rfl⟩
  | succ n ih =>
    intro pf elapsed w w2 e hrun hNS htid
    rw [runLoop] at hrun
    by_cases ht : truthy w.el.run = true
    · rw [if_pos ht] at hrun
      rcases hpass : tickPassAux w.el.frame pf (passInit w) with _ | out
      · have hfc : frameCycle pf elapsed w = none := by
          unfold frameCycle elTick
          rw [hpass]
        rw [hfc] at hrun
        cases hrun
      · have hNS0 : ∀ v k c, ((passInit w).heap v).beh k ≠ TickEff.schedThen tid c := hNS
        have hpend0 : tid ∉ (passInit w).pending := htid
        have hkeep0 : tid ∉ (passInit w).keep := by
          intro hc
          cases hc
        have hdone0 : tid ∉ (passInit w).done := by
          intro hc
          cases hc
        obtain ⟨hfix, _⟩ := pass_untouched hpass hNS0 hpend0 hkeep0
        obtain ⟨_, htasks⟩ := pass_not_visited hpass hNS0 hpend0 hkeep0 hdone0
        have hbeh := pass_beh hpass
        cases out with
        | ok h1 ra kp vl =>
          rw [frameCycle_ok elapsed hpass] at hrun
          have hNS1 : ∀ v k c,
              ((afterFrame w h1 kp ra (w.el.seconds_per_frame - elapsed w.el.frame)).heap v).beh k
                ≠ TickEff.schedThen tid c := by
            intro v k c
            show (h1 v).beh k ≠ _
            rw [show (h1 v).beh = (w.heap v).beh from hbeh v]
            exact hNS v k c
          have htid1 : tid ∉
              (afterFrame w h1 kp ra (w.el.seconds_per_frame - elapsed w.el.frame)).el.tasks :=
            htasks
          obtain ⟨c1, c2, c3⟩ := ih hrun hNS1 htid1
          refine ⟨?_, c2, ?_⟩
          · rw [c1]
            exact hfix
          · intro v
            rw [c3 v]
            exact hbeh v
        | err h1 ra tn dn e2 =>
          rw [frameCycle_err elapsed hpass] at hrun
          injection Option.some.inj hrun with hw he
          subst hw
          exact ⟨hfix, htasks, hbeh⟩
    · rw [if_neg ht] at hrun
      injection Option.some.inj hrun with hw he
      subst hw
      exact ⟨rfl, htid, fun v => rfl⟩

/-! ### Re-entrant scheduling during a frame (C2) -/

/-- C2 counterexample: in scenario `wC2` (frame 0, task list `[0]`), task
`0` schedules the fresh task `1` during its own tick; the comprehension in
`EventLoop.tick` iterates over the live list — not a snapshot — so task
`1` is ticked during frame 0 itself (`tickedFrames = [0]`), refuting the
claim that a task scheduled during frame N is first ticked in frame N+1. -/
theorem claim_C2_counterexample :
    wC2.el.frame = 0
    ∧ ((outWorld (elTick 9 wC2)).heap 1).tickedFrames = [0]
    ∧ ((outWorld (elTick 9 wC2)).heap 1).tickCount = 1
    ∧ (outWorld (elTick 9 wC2)).el.tasks = [0, 1]
    ∧ (outWorld (elTick 9 wC2)).el.frame = 1 := by
  refine ⟨rfl, rfl, rfl, rfl, rfl⟩

/-- C2 amended: the tick pass of frame N iterates over the live task
list; a task appended by `schedule` during the pass lands at the end of
the same list and is therefore visited in the same pass.  Whenever the
pass of frame N terminates, its full grown list `vl` extends the frame's
initial task list, and every task in it — including every task scheduled
during the frame — has been ticked during frame N (not starting N+1). -/
theorem claim_C2_amended (w : World) (pf : Nat) (h1 : Heap) (ra : Option Bool)
    (kp vl : List Nat)
    (hp : tickPassAux w.el.frame pf (passInit w) = some (.ok h1 ra kp vl)) :
    (∃ ap, vl = w.el.tasks ++ ap)
    ∧ (∀ v ∈ vl, w.el.frame ∈ (h1 v).tickedFrames) := by
  constructor
  · obtain ⟨ap, hap⟩ := pass_visited_shape hp
    exact ⟨ap, by simpa using hap⟩
  · intro v hv
    exact pass_visited_ticked hp (by intro u hu; cases hu) v hv

/-- C2 amended witness: in the scenario pass, the task `1` scheduled
mid-frame is among the visited tasks and is ticked during frame 0. -/
theorem claim_C2_amended_witness :
    (0 : Nat) ∈ ((passOutOf (tickPassAux 0 9 (passInit wC2))).heapOf 1).tickedFrames := by
  have h := claim_C2_amended wC2 9 _ _ _ _ rfl
  exact h.2 1 (by decide)

/-! ### Dropping a task that returns continue=false (C4) -/

/-- C4: if a task occurring once in the sequence returns continue=false
when ticked in frame N (while alive, with a non-raising finish hook, and
never re-scheduled by any task), then in the frame's result the scheduler
has run its finish hook exactly once, moved it to the terminal `Finished`
state, logged its tick at frame N, and removed it from the active
sequence; the surviving tasks form a subsequence of the original order
(extended by any newly scheduled tasks); and over any continuation of the
run — any number of further frames and the final bulk-finish teardown —
the task's object never changes again: it is never ticked at frame N+1 or
later and its finish hook never runs a second time. -/
theorem claim_C4 (w : World) (pf tid : Nat) (w1 : World)
    (hcnt : w.el.tasks.count tid = 1)
    (hNS : ∀ v k c, (w.heap v).beh k ≠ TickEff.schedThen tid c)
    (hbeh : (w.heap tid).beh ((w.heap tid).tickCount) = TickEff.ret false)
    (hstate : (w.heap tid).state = ELState.Setup ∨ (w.heap tid).state = ELState.Running)
    (hraise : (w.heap tid).finishRaises = false)
    (htick : elTick pf w = some (w1, none)) :
    (w1.heap tid).finishCount = (w.heap tid).finishCount + 1
    ∧ (w1.heap tid).state = ELState.Finished
    ∧ (w1.heap tid).tickedFrames = (w.heap tid).tickedFrames ++ [w.el.frame]
    ∧ tid ∉ w1.el.tasks
    ∧ (∃ ap, List.Sublist w1.el.tasks (w.el.tasks ++ ap))
    ∧ (∀ (pf2 fuel : Nat) (elapsed : Nat → ℚ) (w2 : World) (e : Option PyErr),
        runLoop pf2 elapsed fuel w1 = some (w2, e) →
        w2.heap tid = w1.heap tid ∧ tid ∉ w2.el.tasks
          ∧ (elFinish w2).1.heap tid = w2.heap tid) := by
  rcases hpass : tickPassAux w.el.frame pf (passInit w) with _ | out
  · unfold elTick at htick
    rw [hpass] at htick
    cases htick
  · cases out with
    | err h1 ra tn dn e2 =>
      rw [elTick_err hpass] at htick
      injection Option.some.inj htick with hw he
      cases he
    | ok h1 ra kp vl =>
      rw [elTick_ok hpass] at htick
      injection Option.some.inj htick with hw he
      subst hw
      have hdrop := pass_drop hpass hNS hcnt (by intro hc; cases hc) (by intro hc; cases hc)
        hbeh hstate hraise
      obtain ⟨c1, c2, _, c4, c5⟩ := hdrop
      have hbehinv := pass_beh hpass
      refine ⟨c1, c2, c4, c5, ?_, ?_⟩
      · have hsub := pass_keep_sublist hpass (List.Sublist.refl [])
        obtain ⟨ap, hap⟩ := pass_visited_shape hpass
        refine ⟨ap, ?_⟩
        have hvl : vl = w.el.tasks ++ ap := by simpa using hap
        rw [hvl] at hsub
        exact hsub
      · intro pf2 fuel elapsed w2 e hrun
        have hNS1 : ∀ v k c,
            (({ el := { w.el with tasks := kp, frame := w.el.frame + 1, run := ra },
                heap := h1 } : World).heap v).beh k ≠ TickEff.schedThen tid c := by
          intro v k c
          show (h1 v).beh k ≠ _
          rw [show (h1 v).beh = (w.heap v).beh from hbehinv v]
          exact hNS v k c
        obtain ⟨d1, d2, _⟩ := runLoop_untouched hrun hNS1 c5
        refine ⟨d1, d2, ?_⟩
        rw [elFinish_heap]
        exact elFinishAux_ne _ _ d2

/-- C4 witness: in scenario `wC4` (tasks `[3, 7]`, task `7` returning
continue=false on frame 0), task `7`'s finish hook runs exactly once, it
ends `Finished`, its only tick is at frame 0, and it is removed. -/
theorem claim_C4_witness :
    ((outWorld (elTick 5 wC4)).heap 7).finishCount = 1
    ∧ ((outWorld (elTick 5 wC4)).heap 7).state = ELState.Finished
    ∧ ((outWorld (elTick 5 wC4)).heap 7).tickedFrames = [0]
    ∧ 7 ∉ (outWorld (elTick 5 wC4)).el.tasks := by
  have hNS : ∀ v k c, (wC4.heap v).beh k ≠ TickEff.schedThen 7 c := by
    intro v k c
    show (hC4 v).beh k ≠ _
    unfold hC4
    by_cases hv : v = 7 <;> simp [hv]
  have h := claim_C4 wC4 5 7 (outWorld (elTick 5 wC4)) (by decide) hNS rfl
    (Or.inl rfl) rfl rfl
  exact ⟨h.1, h.2.1, h.2.2.1, h.2.2.2.1⟩

/-! ### A task's tick raising an error (C5) -/

/-- C5 counterexample: in scenario `wC5` (tasks `[0, 1]`, task `0`'s tick
raising), task `1` is never ticked in the frame (`tickCount = 0` at the
end of the whole run) — refuting the claim that the frame's remaining
tasks are still given a chance to tick.  The teardown does still run
(task `1` is finished once) and the error is surfaced to the caller. -/
theorem claim_C5_counterexample :
    ((outWorld (runAndTeardown 5 (fun _ => 0) 3 wC5)).heap 1).tickCount = 0
    ∧ outErr (runAndTeardown 5 (fun _ => 0) 3 wC5) = some (PyErr.tickError 0)
    ∧ ((outWorld (runAndTeardown 5 (fun _ => 0) 3 wC5)).heap 1).finishCount = 1 := by
  refine ⟨rfl, rfl, rfl⟩

/-- C5 amended: when a task's tick raises during frame N, the error is not
silently ignored, but it aborts the frame: the tasks not yet visited in
the pass are NOT ticked during frame N; the loop exits, the bulk-finish
pass still runs on the grown live list, and the raised error is surfaced
to the caller of `run` after teardown — unless the teardown itself
raises, in which case that later error replaces it. -/
theorem claim_C5_amended (w : World) (pf : Nat) (h1 : Heap) (ra : Option Bool)
    (tn dn : List Nat) (r : Nat) (elapsed : Nat → ℚ) (fuel : Nat)
    (ht : truthy w.el.run = true)
    (hp : tickPassAux w.el.frame pf (passInit w)
        = some (.err h1 ra tn dn (.tickError r))) :
    (∀ v, v ∉ dn → (h1 v).tickCount = (w.heap v).tickCount
      ∧ (h1 v).tickedFrames = (w.heap v).tickedFrames)
    ∧ elTick pf w = some (errWorld w h1 ra tn, some (.tickError r))
    ∧ runAndTeardown pf elapsed (fuel + 1) w
        = some ((elFinish (errWorld w h1 ra tn)).1,
            some (((elFinish (errWorld w h1 ra tn)).2).getD (.tickError r))) := by
  refine ⟨?_, elTick_err hp, ?_⟩
  · intro v hv
    exact pass_unvisited hp v hv
  · have hrl : runLoop pf elapsed (fuel + 1) w
        = some (errWorld w h1 ra tn, some (PyErr.tickError r)) := by
      rw [runLoop, if_pos ht, frameCycle_err elapsed hp]
    unfold runAndTeardown
    rw [hrl]
    show (match elFinish (errWorld w h1 ra tn) with
      | (w2, some e2) => some (w2, some e2)
      | (w2, none) => some (w2, some (PyErr.tickError r)))
      = some ((elFinish (errWorld w h1 ra tn)).1,
          some (((elFinish (errWorld w h1 ra tn)).2).getD (PyErr.tickError r)))
    rcases helf : elFinish (errWorld w h1 ra tn) with ⟨w4, oe⟩
    cases oe <;> rfl

/-- C5 amended witness: in scenario `wC5` the unvisited task `1` keeps
`tickCount = 0` through the aborted frame, and the tick error of task `0`
is surfaced by `run` after the teardown. -/
theorem claim_C5_amended_witness :
    ((passOutOf (tickPassAux 0 5 (passInit wC5))).heapOf 1).tickCount = 0
    ∧ outErr (runAndTeardown 5 (fun _ => 0) 3 wC5) = some (PyErr.tickError 0) := by
  have h := claim_C5_amended wC5 5 _ _ _ _ 0 (fun _ => 0) 2 rfl rfl
  constructor
  · exact (h.1 1 (by decide)).1
  · rw [h.2.2]
    rfl

/-! ### Stopping the loop mid-frame (C8) -/

/-- C8: when `stop()` is called during frame N (the pass's resulting `run`
attribute is `False`), frame N still completes in full: every task in the
frame's grown list — including those after the stopping tick — is ticked
during frame N, the frame's sleep phase still executes (the computed
`sleep_time` is logged for frame N), the frame counter advances to N+1,
and the loop then exits at the next boundary check: for every remaining
fuel, no frame N+1 pass begins. -/
theorem claim_C8 (w : World) (pf : Nat) (h1 : Heap) (kp vl : List Nat)
    (ht : w.el.run = some true)
    (hp : tickPassAux w.el.frame pf (passInit w) = some (.ok h1 (some false) kp vl)) :
    (∀ v ∈ vl, w.el.frame ∈ (h1 v).tickedFrames)
    ∧ ∀ (elapsed : Nat → ℚ) (fuel : Nat),
        runLoop pf elapsed (fuel + 1) w
          = some (afterFrame w h1 kp (some false)
              (w.el.seconds_per_frame - elapsed w.el.frame), none) := by
  constructor
  · intro v hv
    exact pass_visited_ticked hp (by intro u hu; cases hu) v hv
  · intro elapsed fuel
    have htt : truthy w.el.run = true := by rw [ht]; rfl
    rw [runLoop, if_pos htt, frameCycle_ok elapsed hp]
    have hstop : truthy (afterFrame w h1 kp (some false)
        (w.el.seconds_per_frame - elapsed w.el.frame)).el.run = false := rfl
    exact runLoop_stopped hstop fuel

/-- C8 witness: in scenario `wC8` (task `0` stops during frame 0, task `1`
after it), task `1` is still ticked in frame 0, and the loop exits after
exactly one frame with its sleep logged (frame counter 1, sleep log `[1]`,
no error), regardless of remaining fuel. -/
theorem claim_C8_witness :
    (0 : Nat) ∈ ((passOutOf (tickPassAux 0 5 (passInit wC8))).heapOf 1).tickedFrames
    ∧ (runLoop 5 (fun _ => 0) 4 wC8).map (fun p => (p.1.el.frame, p.1.el.sleepLog, p.2))
        = some (1, [1], none) := by
  have h := claim_C8 wC8 5 _ _ _ rfl rfl
  constructor
  · exact h.1 1 (by decide)
  · rw [h.2 (fun _ => 0) 3]
    simp only [Option.map, afterFrame]
    norm_num [wC8]

end SmartParty
